import Mathlib

/-!
# Project1.cpp — word-frequency similarity of documents

A shallow embedding of `src/Project1.cpp` and theorems about it.

Modelling conventions.

* `std::string` is a list of characters (`Str`).  `operator<` on strings is the
  lexicographic order of the characters, which is the order of `List Char`.
* `<cctype>` classification (`isalnum`, `isspace`, `toupper`) is that of the
  default "C" locale: only ASCII letters and digits are alphanumeric, the six
  characters space, `\t`, `\n`, `\v`, `\f`, `\r` are white space.
* `std::map<std::string, V>` is an association list whose keys are strictly
  ascending (`StdMap V`); iteration over the map is iteration over the list.
* `int` counters are natural numbers (no document has `2^31` tokens).
* `double` is a type parameter of `normalizeFreqs`, `topWords` and
  `similarityScore`.  It is instantiated with the exact rationals `ℚ` for the
  theorems of exact arithmetic, and with `Binary64` (every operation rounded to
  nearest, ties to even) to compute what the program returns in `double`.
* `std::sort` is not a function of this repository; it is a parameter
  (`sortFn`) of the functions that call it, and theorems assume its contract
  (`StdSortContract`): the result is a permutation of the input and no later
  element compares before an earlier one.  The order of equivalent elements is
  left open, as it is by the C++ standard.  `libstdcxxSort` is the algorithm
  of GNU libstdc++.
-/

namespace Project1

/-- `std::string`. -/
abbrev Str := List Char

/-! ## `<cctype>` in the "C" locale -/

/-- `std::isdigit`. -/
def isdigit (c : Char) : Bool := decide ('0' ≤ c) && decide (c ≤ '9')

/-- `std::isupper`. -/
def isupper (c : Char) : Bool := decide ('A' ≤ c) && decide (c ≤ 'Z')

/-- `std::islower`. -/
def islower (c : Char) : Bool := decide ('a' ≤ c) && decide (c ≤ 'z')

/-- `std::isalnum`: letter or digit. -/
def isalnum (c : Char) : Bool := isupper c || islower c || isdigit c

/-- `std::isspace`: space, `\t`, `\n`, `\v`, `\f`, `\r`. -/
def isspace (c : Char) : Bool := c == ' ' || (decide (9 ≤ c.toNat) && decide (c.toNat ≤ 13))

/-- `std::toupper`: lower-case letters move down by 32, all else is unchanged. -/
def toupper (c : Char) : Char := if islower c then Char.ofNat (c.toNat - 32) else c

/-! ## `clean` -/

/-- One iteration of the loop of `clean`: the character appended for `c`. -/
def cleanStep (cleanedText : Str) (c : Char) : Str :=
  if isalnum c then cleanedText ++ [toupper c]
  else if isspace c then cleanedText ++ [' ']
  else cleanedText ++ [' ']

/-- `std::string clean(const std::string& text)`. -/
def clean (text : Str) : Str := text.foldl cleanStep []

/-! ## `std::map` -/

/-- `std::map<std::string, V>`: the entries in iteration order. -/
abbrev StdMap (V : Type) := List (Str × V)

/-- `m[key]` followed by an update `f` of the mapped value; a missing key is
first inserted with the value-initialised `dflt`.  Only `<` on keys is used. -/
def mapModify {V : Type} (dflt : V) (f : V → V) (key : Str) : StdMap V → StdMap V
  | [] => [(key, f dflt)]
  | (k, v) :: rest =>
    if key < k then (key, f dflt) :: (k, v) :: rest
    else if k < key then (k, v) :: mapModify dflt f key rest
    else (k, f v) :: rest

/-- `m.find(key)`: the value mapped to `key`, if the key is present. -/
def mapFind {V : Type} (m : StdMap V) (key : Str) : Option V :=
  match m with
  | [] => none
  | (k, v) :: rest => if key = k then some v else mapFind rest key

/-! ## `wordCounts` -/

/-- The vector `stopWords` of `wordCounts`. -/
def stopWords : List Str :=
  ["A".toList, "AND".toList, "AN".toList, "OF".toList, "IN".toList, "THE".toList]

/-- The inner loop of `wordCounts`: scan the stop words, stop at the first match. -/
def isStopWord (word : Str) : List Str → Bool
  | [] => false
  | stopWord :: rest => if word = stopWord then true else isStopWord word rest

/-- `iss >> word`: skip leading white space, then take characters up to the next
white space or the end; the extraction fails when no character is taken.
Returns the word and the rest of the stream. -/
def extractWord (iss : Str) : Option (Str × Str) :=
  let s := iss.dropWhile isspace
  let word := s.takeWhile (fun c => !isspace c)
  if word = [] then none else some (word, s.dropWhile (fun c => !isspace c))

/-- The body of the `while` loop of `wordCounts` for an extracted word:
`counts[word]++` unless the word is a stop word. -/
def countWord (counts : StdMap Nat) (word : Str) : StdMap Nat :=
  if isStopWord word stopWords then counts else mapModify 0 (fun v => v + 1) word counts

/-- The `while (iss >> word)` loop of `wordCounts`; `fuel` bounds the number of
iterations. -/
def wordCountsLoop : Nat → Str → StdMap Nat → StdMap Nat
  | 0, _, counts => counts
  | fuel + 1, iss, counts =>
    match extractWord iss with
    | none => counts
    | some (word, rest) => wordCountsLoop fuel rest (countWord counts word)

/-- `std::map<std::string, int> wordCounts(const std::string& text)`.  Every
iteration consumes at least one character, so `text.length` iterations suffice
(`wordCounts_eq_foldl`). -/
def wordCounts (text : Str) : StdMap Nat := wordCountsLoop text.length text []

/-! ## Specification-side notions for the tokenizer -/

/-- The non-empty pieces of `s` between separators (the characters satisfying
`sep`): split at every separator, drop the empty pieces. -/
def pieces (sep : Char → Bool) (s : Str) : List Str :=
  (s.splitOnP sep).filter (fun t => t ≠ [])

/-- The non-empty white-space-separated tokens of a text. -/
def whitespaceTokens (text : Str) : List Str := pieces isspace text

/-- The maximal runs of alphanumeric characters of a text. -/
def alnumRuns (text : Str) : List Str := pieces (fun c => !c.isAlphanum) text

/-- The character `clean` emits for `c`. -/
def cleanChar (c : Char) : Char := if isalnum c then toupper c else ' '

/-- The keys of a map are strictly ascending. -/
def KeysAscending {V : Type} (m : StdMap V) : Prop := m.Pairwise (fun a b => a.1 < b.1)

/-! ## `double`

`normalizeFreqs`, `topWords` and `similarityScore` are written once, for any
number type with the operations the source uses.  Two instances matter:

* `ℚ`, exact arithmetic;
* `Binary64`, the finite IEEE 754 binary64 numbers with every operation rounded
  to nearest, ties to even (overflow to infinity is not modelled; no value of
  this development reaches `2^1024`). -/

/-- The number of binary digits of `n`, by halving at most `fuel` times. -/
def bitLengthAux : Nat → Nat → Nat
  | 0, _ => 0
  | fuel + 1, n => if n = 0 then 0 else bitLengthAux fuel (n / 2) + 1

/-- The number of binary digits of `n` (`n` halvings always suffice). -/
def bitLength (n : Nat) : Nat := bitLengthAux n n

/-- The binade of a non-zero rational: the `e` with `2^e ≤ |q| < 2^(e+1)`.  The
difference of the bit lengths of numerator and denominator is `e` or `e + 1`. -/
def binade (q : ℚ) : Int :=
  let e0 : Int := (bitLength q.num.natAbs : Int) - (bitLength q.den : Int)
  if (2 : ℚ) ^ e0 ≤ |q| then e0 else e0 - 1

/-- Round a rational to the nearest integer, ties to the even one. -/
def roundHalfEven (x : ℚ) : Int :=
  let f : Int := ⌊x⌋
  let r : ℚ := x - f
  if r < 1 / 2 then f
  else if 1 / 2 < r then f + 1
  else if f % 2 = 0 then f else f + 1

/-- Round a rational to binary64: 53 significant bits, smallest exponent `-1022`
(below it the spacing is that of the subnormal numbers). -/
def roundBinary64 (q : ℚ) : ℚ :=
  if q = 0 then 0
  else
    let e : Int := max (binade q) (-1022)
    let ulp : ℚ := (2 : ℚ) ^ (e - 52)
    (roundHalfEven (q / ulp) : ℚ) * ulp

/-- A finite `double`, given by its exact value. -/
structure Binary64 where
  /-- The exact value of the number. -/
  val : ℚ
deriving DecidableEq

instance : Zero Binary64 := ⟨⟨0⟩⟩

instance : Add Binary64 := ⟨fun a b => ⟨roundBinary64 (a.val + b.val)⟩⟩

instance : Div Binary64 := ⟨fun a b => ⟨roundBinary64 (a.val / b.val)⟩⟩

instance : NatCast Binary64 := ⟨fun n => ⟨roundBinary64 (n : ℚ)⟩⟩

instance : LT Binary64 := ⟨fun a b => a.val < b.val⟩

instance (a b : Binary64) : Decidable (a < b) := inferInstanceAs (Decidable (a.val < b.val))

/-! ## `main`, lines 55–61, and `normalizeFreqs` -/

/-- The loop `for (const auto& pair : counts) total += pair.second` of `main`. -/
def totalCount (counts : StdMap Nat) : Nat :=
  counts.foldl (fun total pair => total + pair.2) 0

/-- `std::map<std::string, double> normalizeFreqs(counts, total)`:
`freqs[pair.first] = static_cast<double>(pair.second) / total` for every entry.
A division by `total = 0` is evaluated only when `counts` is not empty, which
`main` never does (its total is then positive); the value of `x / 0` in the
number type plays no role in this development. -/
def normalizeFreqs {α : Type} [Zero α] [Div α] [NatCast α]
    (counts : StdMap Nat) (total : Nat) : StdMap α :=
  counts.foldl
    (fun freqs pair => mapModify 0 (fun _ => (pair.2 : α) / (total : α)) pair.1 freqs) []

/-! ## `std::sort` -/

/-- The requirement on the comparison object of `std::sort`: a strict weak
ordering. -/
structure StrictWeakOrdering {α : Type} (comp : α → α → Bool) : Prop where
  /-- No element compares before itself. -/
  irrefl : ∀ a, comp a a = false
  /-- The comparison is transitive. -/
  trans : ∀ a b c, comp a b = true → comp b c = true → comp a c = true
  /-- Equivalence (neither compares before the other) is transitive. -/
  incomp_trans : ∀ a b c, comp a b = false → comp b a = false → comp b c = false →
    comp c b = false → comp a c = false ∧ comp c a = false

/-- A sorting routine in the shape of `std::sort`: the comparison object and the
range go in, the rearranged range comes out. -/
abbrev SortFn : Type 1 := {α : Type} → (α → α → Bool) → List α → List α

/-- The contract of `std::sort(first, last, comp)`: for a strict weak ordering
`comp` the range afterwards is a permutation of the range before, and no
element compares before an element that precedes it.  Nothing is promised about
the order of equivalent elements. -/
def StdSortContract (sortFn : SortFn) : Prop :=
  ∀ {α : Type} (comp : α → α → Bool) (l : List α), StrictWeakOrdering comp →
    (sortFn comp l).Perm l ∧ (sortFn comp l).Pairwise (fun a b => comp b a = false)

/-- Insert `x` into a sorted list, behind every element it does not compare
before. -/
def insertSorted {α : Type} (comp : α → α → Bool) (x : α) : List α → List α
  | [] => [x]
  | y :: ys => if comp x y then x :: y :: ys else y :: insertSorted comp x ys

/-- Insertion sort, left to right; it keeps equivalent elements in their input
order. -/
def insertionSort {α : Type} (comp : α → α → Bool) (l : List α) : List α :=
  l.foldl (fun acc x => insertSorted comp x acc) []

/-- Insertion sort of the reversed range; it leaves equivalent elements in the
reverse of their input order. -/
def reversingSort {α : Type} (comp : α → α → Bool) (l : List α) : List α :=
  insertionSort comp l.reverse

/-! ## `topWords` and `similarityScore` -/

/-- The comparison object of the `std::sort` call in `topWords`:
`a.second > b.second`. -/
def byFreqDesc {α : Type} [LT α] [DecidableRel (fun a b : α => a < b)]
    (a b : Str × α) : Bool := decide (b.2 < a.2)

/-- `topWords(freqs, n)`: copy the map into a vector, sort it by descending
frequency with `std::sort` (the parameter `sortFn`), keep the first
`min(n, size)` entries. -/
def topWords {α : Type} [LT α] [DecidableRel (fun a b : α => a < b)]
    (sortFn : SortFn) (freqs : StdMap α) (n : Int) : List (Str × α) :=
  let sortedWords := sortFn byFreqDesc freqs
  sortedWords.take (min n (sortedWords.length : Int)).toNat

/-- `similarityScore(words1, words2)`: the nested loop adding
`word1.second + word2.second` to `sim` for every pair with equal tokens. -/
def similarityScore {α : Type} [Zero α] [Add α] (words1 words2 : List (Str × α)) : α :=
  words1.foldl
    (fun sim word1 =>
      words2.foldl
        (fun sim word2 => if word1.1 = word2.1 then sim + (word1.2 + word2.2) else sim)
        sim)
    0

/-- The profile `main` computes for one file (lines 39 and 55–61), with the
number `n` of words kept by `topWords` as a parameter; `main` uses the default
argument, `n = 100`. -/
def documentProfile {α : Type} [Zero α] [Div α] [NatCast α] [LT α]
    [DecidableRel (fun a b : α => a < b)] (sortFn : SortFn) (n : Int) (content : Str) :
    List (Str × α) :=
  let text := clean content
  let counts := wordCounts text
  let total := totalCount counts
  let freqs : StdMap α := normalizeFreqs counts total
  topWords sortFn freqs n

/-! ## Specification-side notions for profiles -/

/-- The frequency a profile lists for token `t` (zero when `t` is not listed). -/
def freqOf {α : Type} [Zero α] (profile : List (Str × α)) (t : Str) : α :=
  (mapFind profile t).getD 0

/-- The score as the specification words it: the sum, over the tokens common to
the two profiles, of the two frequencies of the token. -/
def intersectionScore (profileA profileB : List (Str × ℚ)) : ℚ :=
  ∑ t ∈ (profileA.map Prod.fst).toFinset ∩ (profileB.map Prod.fst).toFinset,
    (freqOf profileA t + freqOf profileB t)

/-- The score as one loop over the entries of the first profile whose token
occurs in the second (an index lookup in place of the inner loop), adding the
same terms in the same order as `similarityScore`. -/
def sharedLoopScore {α : Type} [Zero α] [Add α] (profileA profileB : List (Str × α)) : α :=
  (profileA.filter (fun a => decide (a.1 ∈ profileB.map Prod.fst))).foldl
    (fun sim a => sim + (a.2 + freqOf profileB a.1)) 0

/-- The score as a sorted merge computes it: the shared tokens are visited in
ascending token order. -/
def sortedMergeScore {α : Type} [Zero α] [Add α] (profileA profileB : List (Str × α)) : α :=
  (insertionSort (fun s t : Str => decide (s < t))
      ((profileA.map Prod.fst).filter (fun t => decide (t ∈ profileB.map Prod.fst)))).foldl
    (fun sim t => sim + (freqOf profileA t + freqOf profileB t)) 0

/-! ## GNU libstdc++ `std::sort`

The algorithm of `bits/stl_algo.h` and `bits/stl_heap.h` of GNU libstdc++, on a
range given as a list with positions counted from 0.  It is one implementation
of `std::sort`; it is used to compute what the program does with ties when it
is built with this library. -/

/-- `std::iter_swap(first + i, first + j)` on the range `l`. -/
def iterSwap {α : Type} (l : List α) (i j : Nat) : List α :=
  match l[i]?, l[j]? with
  | some x, some y => (l.set i y).set j x
  | _, _ => l

/-- `__move_median_to_first(result, a, b, c, comp)`. -/
def moveMedianToFirst {α : Type} (comp : α → α → Bool) (l : List α) (result a b c : Nat) :
    List α :=
  match l[a]?, l[b]?, l[c]? with
  | some xa, some xb, some xc =>
    if comp xa xb then
      if comp xb xc then iterSwap l result b
      else if comp xa xc then iterSwap l result c
      else iterSwap l result a
    else if comp xa xc then iterSwap l result a
    else if comp xb xc then iterSwap l result c
    else iterSwap l result b
  | _, _, _ => l

/-- The first loop of `__unguarded_partition`: `while (comp(first, pivot)) ++first`. -/
def scanUp {α : Type} (comp : α → α → Bool) (l : List α) (pivot : α) : Nat → Nat → Nat
  | 0, first => first
  | fuel + 1, first =>
    match l[first]? with
    | some x => if comp x pivot then scanUp comp l pivot fuel (first + 1) else first
    | none => first

/-- The second loop of `__unguarded_partition`: `while (comp(pivot, last)) --last`. -/
def scanDown {α : Type} (comp : α → α → Bool) (l : List α) (pivot : α) : Nat → Nat → Nat
  | 0, last => last
  | fuel + 1, last =>
    match l[last]? with
    | some x => if comp pivot x then scanDown comp l pivot fuel (last - 1) else last
    | none => last

/-- `__unguarded_partition(first, last, pivot, comp)`: the range after the swaps
and the returned cut. -/
def unguardedPartition {α : Type} (comp : α → α → Bool) (pivot : Nat) :
    Nat → List α → Nat → Nat → List α × Nat
  | 0, l, first, _ => (l, first)
  | fuel + 1, l, first, last =>
    match l[pivot]? with
    | none => (l, first)
    | some p =>
      let first1 := scanUp comp l p l.length first
      let last1 := scanDown comp l p l.length (last - 1)
      if first1 < last1 then
        unguardedPartition comp pivot fuel (iterSwap l first1 last1) (first1 + 1) last1
      else (l, first1)

/-- `__unguarded_partition_pivot(first, last, comp)`. -/
def unguardedPartitionPivot {α : Type} (comp : α → α → Bool) (l : List α) (first last : Nat) :
    List α × Nat :=
  let mid := first + (last - first) / 2
  let l1 := moveMedianToFirst comp l first (first + 1) mid (last - 1)
  unguardedPartition comp first l1.length l1 (first + 1) last

/-- `__push_heap(first, holeIndex, topIndex, value, comp)`; `fuel` bounds the
number of moves. -/
def pushHeap {α : Type} (comp : α → α → Bool) (first topIndex : Nat) (value : α) :
    Nat → List α → Nat → List α
  | 0, l, holeIndex => l.set (first + holeIndex) value
  | fuel + 1, l, holeIndex =>
    let parent := (holeIndex - 1) / 2
    match l[first + parent]? with
    | some p =>
      if holeIndex > topIndex ∧ comp p value then
        pushHeap comp first topIndex value fuel (l.set (first + holeIndex) p) parent
      else l.set (first + holeIndex) value
    | none => l.set (first + holeIndex) value

/-- The `while` loop of `__adjust_heap`: move the larger child into the hole.
Returns the range, the hole and `secondChild`. -/
def adjustHeapLoop {α : Type} (comp : α → α → Bool) (first len : Nat) :
    Nat → List α → Nat → Nat → List α × Nat × Nat
  | 0, l, holeIndex, secondChild => (l, holeIndex, secondChild)
  | fuel + 1, l, holeIndex, secondChild =>
    if secondChild < (len - 1) / 2 then
      let c := 2 * (secondChild + 1)
      match l[first + c]?, l[first + (c - 1)]? with
      | some x, some y =>
        let c1 := if comp x y then c - 1 else c
        match l[first + c1]? with
        | some z => adjustHeapLoop comp first len fuel (l.set (first + holeIndex) z) c1 c1
        | none => (l, holeIndex, secondChild)
      | _, _ => (l, holeIndex, secondChild)
    else (l, holeIndex, secondChild)

/-- `__adjust_heap(first, holeIndex, len, value, comp)`. -/
def adjustHeap {α : Type} (comp : α → α → Bool) (l : List α) (first holeIndex len : Nat)
    (value : α) : List α :=
  let r := adjustHeapLoop comp first len len l holeIndex holeIndex
  let l1 := r.1
  let hole1 := r.2.1
  let secondChild := r.2.2
  if len % 2 = 0 ∧ secondChild = (len - 2) / 2 then
    let c := 2 * (secondChild + 1)
    match l1[first + (c - 1)]? with
    | some z => pushHeap comp first holeIndex value len (l1.set (first + hole1) z) (c - 1)
    | none => pushHeap comp first holeIndex value len l1 hole1
  else pushHeap comp first holeIndex value len l1 hole1

/-- `__pop_heap(first, last, result, comp)`. -/
def popHeap {α : Type} (comp : α → α → Bool) (l : List α) (first last result : Nat) : List α :=
  match l[result]?, l[first]? with
  | some value, some top => adjustHeap comp (l.set result top) first 0 (last - first) value
  | _, _ => l

/-- The loop of `__make_heap`, from `parent` down to 0. -/
def makeHeapLoop {α : Type} (comp : α → α → Bool) (first len : Nat) : Nat → List α → List α
  | 0, l =>
    match l[first]? with
    | some value => adjustHeap comp l first 0 len value
    | none => l
  | parent + 1, l =>
    match l[first + (parent + 1)]? with
    | some value => makeHeapLoop comp first len parent (adjustHeap comp l first (parent + 1) len value)
    | none => l

/-- `__make_heap(first, last, comp)`. -/
def makeHeap {α : Type} (comp : α → α → Bool) (l : List α) (first last : Nat) : List α :=
  if last - first < 2 then l else makeHeapLoop comp first (last - first) ((last - first - 2) / 2) l

/-- `__sort_heap(first, last, comp)`: `n` is `last - first`. -/
def sortHeap {α : Type} (comp : α → α → Bool) (first : Nat) : Nat → List α → List α
  | 0, l => l
  | n + 1, l =>
    if n + 1 > 1 then sortHeap comp first n (popHeap comp l first (first + n) (first + n))
    else l

/-- `__partial_sort(first, last, last, comp)`: heap sort of the range. -/
def partialSort {α : Type} (comp : α → α → Bool) (l : List α) (first last : Nat) : List α :=
  sortHeap comp first (last - first) (makeHeap comp l first last)

/-- `__introsort_loop(first, last, depth_limit, comp)`; `fuel` bounds the number
of nested calls and iterations. -/
def introsortLoop {α : Type} (comp : α → α → Bool) :
    Nat → List α → Nat → Nat → Nat → List α
  | 0, l, _, _, _ => l
  | fuel + 1, l, first, last, depthLimit =>
    if last - first > 16 then
      if depthLimit = 0 then partialSort comp l first last
      else
        let r := unguardedPartitionPivot comp l first last
        let l1 := introsortLoop comp fuel r.1 r.2 last (depthLimit - 1)
        introsortLoop comp fuel l1 first r.2 (depthLimit - 1)
    else l

/-- The loop of `__unguarded_linear_insert(last, comp)` with the value `val`
taken out of position `last`: shift larger neighbours up, then store `val`. -/
def unguardedLinearInsertLoop {α : Type} (comp : α → α → Bool) (val : α) :
    Nat → List α → Nat → List α
  | 0, l, last => l.set last val
  | fuel + 1, l, last =>
    match l[last - 1]? with
    | some x =>
      if last ≠ 0 ∧ comp val x then
        unguardedLinearInsertLoop comp val fuel (l.set last x) (last - 1)
      else l.set last val
    | none => l.set last val

/-- `__unguarded_linear_insert(last, comp)`. -/
def unguardedLinearInsert {α : Type} (comp : α → α → Bool) (l : List α) (last : Nat) : List α :=
  match l[last]? with
  | some val => unguardedLinearInsertLoop comp val last l last
  | none => l

/-- One iteration of the loop of `__insertion_sort(first, last, comp)` at `i`. -/
def insertionStep {α : Type} (comp : α → α → Bool) (first : Nat) (l : List α) (i : Nat) :
    List α :=
  match l[i]?, l[first]? with
  | some x, some f =>
    if comp x f then
      l.take first ++ x :: ((l.drop first).take (i - first)) ++ l.drop (i + 1)
    else unguardedLinearInsert comp l i
  | _, _ => l

/-- `__insertion_sort(first, last, comp)`. -/
def insertionSortRange {α : Type} (comp : α → α → Bool) (l : List α) (first last : Nat) :
    List α :=
  if first = last then l
  else ((List.range (last - first - 1)).map (fun k => first + 1 + k)).foldl
    (insertionStep comp first) l

/-- `__unguarded_insertion_sort(first, last, comp)`. -/
def unguardedInsertionSort {α : Type} (comp : α → α → Bool) (l : List α) (first last : Nat) :
    List α :=
  ((List.range (last - first)).map (fun k => first + k)).foldl (unguardedLinearInsert comp) l

/-- `__final_insertion_sort(first, last, comp)`. -/
def finalInsertionSort {α : Type} (comp : α → α → Bool) (l : List α) (first last : Nat) :
    List α :=
  if last - first > 16 then
    unguardedInsertionSort comp (insertionSortRange comp l first (first + 16)) (first + 16) last
  else insertionSortRange comp l first last

/-- `std::__lg(n)`: the position of the highest set bit. -/
def lg (n : Nat) : Nat := bitLength n - 1

/-- `std::sort(first, last, comp)` as GNU libstdc++ implements it (`__sort`):
introsort down to ranges of 16 elements (heap sort once the depth limit
`2 * lg(n)` is used up), then one insertion sort. -/
def libstdcxxSort {α : Type} (comp : α → α → Bool) (l : List α) : List α :=
  if l.length = 0 then l
  else
    let l1 := introsortLoop comp l.length l 0 l.length (lg l.length * 2)
    finalInsertionSort comp l1 0 l1.length


/-! ## GNU libstdc++ `std::sort` on a range of pairwise equivalent elements

When no element of the range is ordered before another, every comparison of
`std::sort` answers `false`, and what `__introsort_loop` does to the range can
be written with list operations alone. -/

/-- What `__unguarded_partition_pivot` does to a range of pairwise equivalent
elements: the middle element is swapped to the front, and the rest of the range
is reversed by the swaps of `__unguarded_partition`. -/
def tiedPartitionPivot {α : Type} (seg : List α) : List α :=
  match iterSwap seg 0 (seg.length / 2) with
  | [] => []
  | h :: t => h :: t.reverse

/-- The cut `__unguarded_partition_pivot` returns on a range of `len` pairwise
equivalent elements, counted from the start of the range. -/
def tiedCut (len : Nat) : Nat := 1 + (len - 1) / 2

/-- What `__introsort_loop` does to a range of pairwise equivalent elements, as
long as the depth limit is not used up. -/
def tiedIntrosort {α : Type} : Nat → List α → List α
  | 0, seg => seg
  | fuel + 1, seg =>
    if seg.length > 16 then
      tiedIntrosort fuel ((tiedPartitionPivot seg).take (tiedCut seg.length)) ++
        tiedIntrosort fuel ((tiedPartitionPivot seg).drop (tiedCut seg.length))
    else seg

/-- Whether `__introsort_loop` on a range of `len` pairwise equivalent elements
stays within the depth limit, so that no heap sort happens. -/
def tiedDepthOk : Nat → Nat → Nat → Bool
  | 0, _, _ => true
  | fuel + 1, depthLimit, len =>
    if len > 16 then
      depthLimit ≠ 0 && tiedDepthOk fuel (depthLimit - 1) (len - tiedCut len) &&
        tiedDepthOk fuel (depthLimit - 1) (tiedCut len)
    else true

/-! ## `main`, lines 54–91: all profiles, all pairs, the ranking -/

/-- The number of books `main` insists on. -/
def bookCountRequired : Nat := 64

/-- The default argument `n = 100` of `topWords`, which `main` relies on. -/
def defaultTopN : Int := 100

/-- The vector `allWords` of `main`: one profile per text, in input order. -/
def allWords {α : Type} [Zero α] [Div α] [NatCast α] [LT α]
    [DecidableRel (fun a b : α => a < b)] (sortFn : SortFn) (contents : List Str) :
    List (List (Str × α)) :=
  contents.map (fun content => documentProfile sortFn defaultTopN content)

/-- The matrix `simMatrix` of `main` after its double loop: 64 rows of 64 cells,
`0.0` on the diagonal and `similarityScore(allWords[i], allWords[j])`
elsewhere. -/
def simMatrix {α : Type} [Zero α] [Add α] (profiles : List (List (Str × α))) : List (List α) :=
  (List.range bookCountRequired).map (fun i =>
    (List.range bookCountRequired).map (fun j =>
      if i ≠ j then similarityScore (profiles.getD i []) (profiles.getD j []) else 0))

/-- The vector `simPairs` of `main` before it is sorted: for `i` from 0 and `j`
from `i + 1`, both below 64, `emplace_back(i, j, simMatrix[i][j])`. -/
def simPairs {α : Type} [Zero α] (matrix : List (List α)) : List (Nat × Nat × α) :=
  (List.range bookCountRequired).foldl
    (fun pairs i =>
      (List.range' (i + 1) (bookCountRequired - (i + 1))).foldl
        (fun pairs j => pairs ++ [(i, j, (matrix.getD i []).getD j 0)])
        pairs)
    []

/-- The comparison object of the `std::sort` call in `main`:
`std::get<2>(a) > std::get<2>(b)`. -/
def bySimDesc {α : Type} [LT α] [DecidableRel (fun a b : α => a < b)]
    (a b : Nat × Nat × α) : Bool := decide (b.2.2 < a.2.2)

/-- The vector `simPairs` of `main` after `std::sort`. -/
def rankedPairs {α : Type} [LT α] [DecidableRel (fun a b : α => a < b)]
    (sortFn : SortFn) (pairs : List (Nat × Nat × α)) : List (Nat × Nat × α) :=
  sortFn bySimDesc pairs

/-- The lines `main` prints: for `i` below 10 and below the number of pairs, the
rank `i + 1`, the two book names and the score of `simPairs[i]`. -/
def reportedPairs {α : Type} [Zero α] (ranked : List (Nat × Nat × α)) (bookNames : List Str) :
    List (Nat × Str × Str × α) :=
  (List.range (min 10 ranked.length)).map (fun i =>
    (i + 1, bookNames.getD (ranked.getD i (0, 0, 0)).1 [],
      bookNames.getD (ranked.getD i (0, 0, 0)).2.1 [], (ranked.getD i (0, 0, 0)).2.2))

/-- What `main` prints for the books (name, content) it has read: nothing but an
error exit (`none`) unless there are exactly 64 of them. -/
def mainReport {α : Type} [Zero α] [Add α] [Div α] [NatCast α] [LT α]
    [DecidableRel (fun a b : α => a < b)] (sortFn : SortFn) (books : List (Str × Str)) :
    Option (List (Nat × Str × Str × α)) :=
  if books.length ≠ bookCountRequired then none
  else
    some (reportedPairs
      (rankedPairs sortFn (simPairs (simMatrix (allWords sortFn (books.map Prod.snd)))))
      (books.map Prod.fst))

/-! ## Arithmetic that records a division by zero -/

/-- A number, or `none` once a division by zero has been evaluated. -/
structure Checked where
  /-- The value, if no division by zero was evaluated on the way to it. -/
  val : Option ℚ
deriving DecidableEq

instance : Zero Checked := ⟨⟨some 0⟩⟩

instance : NatCast Checked := ⟨fun n => ⟨some (n : ℚ)⟩⟩

instance : Div Checked :=
  ⟨fun a b =>
    match a.val, b.val with
    | some x, some y => if y = 0 then ⟨none⟩ else ⟨some (x / y)⟩
    | _, _ => ⟨none⟩⟩

/-- A corpus of 64 books, each with the text `"cat"`. -/
def sampleCorpus : List Str := List.replicate 64 "cat".toList

/-- The first document of the end-to-end example. -/
def exampleDoc1 : Str := "THE CAT SAT ON THE MAT".toList

/-- The second document of the end-to-end example. -/
def exampleDoc2 : Str := "THE CAT RAN ON THE ROAD".toList

/-! ## Theorems: `clean` -/

theorem isalnum_eq (c : Char) : isalnum c = c.isAlphanum := by
  simp only [isalnum, isupper, islower, isdigit, Char.isAlphanum, Char.isAlpha, Char.isUpper,
    Char.isLower, Char.isDigit]
  rfl

theorem toupper_eq (c : Char) : toupper c = c.toUpper := by
  unfold toupper Char.toUpper islower
  have h1 : ('a' ≤ c) ↔ c.toNat ≥ 97 := by
    show 'a'.val ≤ c.val ↔ _
    rw [UInt32.le_def]; rfl
  have h2 : (c ≤ 'z') ↔ c.toNat ≤ 122 := by
    show c.val ≤ 'z'.val ↔ _
    rw [UInt32.le_def]; rfl
  simp only [h1, h2, Bool.and_eq_true, decide_eq_true_eq, ge_iff_le]

theorem foldl_cleanStep (text acc : Str) :
    text.foldl cleanStep acc = acc ++ text.map cleanChar := by
  induction text generalizing acc with
  | nil => simp
  | cons c cs ih =>
    rw [List.foldl_cons, ih]
    unfold cleanStep cleanChar
    by_cases h : isalnum c <;> simp [h]

theorem clean_eq_map (text : Str) : clean text = text.map cleanChar := by
  simp [clean, foldl_cleanStep]

/-- C1: `clean(text)` has the length of `text`; its `i`-th character is the
upper-case form of `text[i]` when that is an ASCII letter or digit and a space
otherwise; `clean("")` is the empty string. -/
theorem clean_spec (text : Str) :
    (clean text).length = text.length ∧
    (∀ i : Nat, (clean text)[i]? =
      (text[i]?).map (fun c => if c.isAlphanum then c.toUpper else ' ')) ∧
    clean [] = [] := by
  refine ⟨by simp [clean_eq_map], fun i => ?_, rfl⟩
  rw [clean_eq_map, List.getElem?_map]
  congr 1
  funext c
  simp [cleanChar, isalnum_eq, toupper_eq]


/-! ## Theorems: tokenizer -/

theorem splitOnP_eq_takeWhile (sep : Char → Bool) (s : Str) :
    s.splitOnP sep = s.takeWhile (fun c => !sep c) ::
      (match s.dropWhile (fun c => !sep c) with
       | [] => []
       | _ :: t => t.splitOnP sep) := by
  induction s with
  | nil => simp
  | cons c cs ih =>
    rw [List.splitOnP_cons]
    by_cases h : sep c
    · simp [h, List.takeWhile_cons, List.dropWhile_cons]
    · simp only [h, Bool.false_eq_true, if_false]
      rw [ih]
      simp [List.takeWhile_cons, List.dropWhile_cons, h]

theorem pieces_nil (sep : Char → Bool) : pieces sep [] = [] := by
  simp [pieces]

theorem pieces_cons_sep (sep : Char → Bool) (c : Char) (cs : Str) (h : sep c = true) :
    pieces sep (c :: cs) = pieces sep cs := by
  simp [pieces, List.splitOnP_cons, h]

theorem pieces_dropWhile_sep (sep : Char → Bool) (s : Str) :
    pieces sep (s.dropWhile sep) = pieces sep s := by
  induction s with
  | nil => simp
  | cons c cs ih =>
    by_cases h : sep c
    · rw [List.dropWhile_cons_of_pos h, ih, pieces_cons_sep sep c cs h]
    · rw [List.dropWhile_cons_of_neg h]

theorem pieces_cons_not_sep (sep : Char → Bool) (c : Char) (cs : Str) (h : sep c = false) :
    pieces sep (c :: cs) =
      (c :: cs.takeWhile (fun c => !sep c)) :: pieces sep (cs.dropWhile (fun c => !sep c)) := by
  have hd : ∀ x t, cs.dropWhile (fun c => !sep c) = x :: t → sep x = true := by
    intro x t hx
    have := List.head_dropWhile_not (fun c => !sep c) cs
    simp [hx] at this
    exact this
  unfold pieces
  rw [List.splitOnP_cons, splitOnP_eq_takeWhile sep cs]
  simp only [h, Bool.false_eq_true, if_false, List.modifyHead_cons]
  rw [List.filter_cons_of_pos (by simp)]
  congr 1
  cases hcs : cs.dropWhile (fun c => !sep c) with
  | nil => simp
  | cons x t =>
    simp only
    rw [List.splitOnP_cons, if_pos (hd x t hcs)]
    simp

theorem extractWord_none (iss : Str) (h : extractWord iss = none) :
    whitespaceTokens iss = [] := by
  unfold extractWord at h
  simp only at h
  split at h
  · rename_i hw
    unfold whitespaceTokens
    rw [← pieces_dropWhile_sep]
    cases hs : iss.dropWhile isspace with
    | nil => exact pieces_nil _
    | cons c cs =>
      exfalso
      have hc : isspace c = false := by
        have := List.head_dropWhile_not isspace iss
        simp [hs] at this
        exact this
      rw [hs] at hw
      simp [List.takeWhile_cons, hc] at hw
  · cases h

theorem extractWord_some (iss word rest : Str) (h : extractWord iss = some (word, rest)) :
    whitespaceTokens iss = word :: whitespaceTokens rest ∧ rest.length < iss.length := by
  unfold extractWord at h
  simp only at h
  split at h
  · cases h
  · rename_i hw
    simp only [Option.some.injEq, Prod.mk.injEq] at h
    obtain ⟨h1, h2⟩ := h
    cases hs : iss.dropWhile isspace with
    | nil => rw [hs] at hw; simp at hw
    | cons c cs =>
      have hc : isspace c = false := by
        have := List.head_dropWhile_not isspace iss
        simp [hs] at this
        exact this
      rw [hs] at h1 h2
      simp only [List.takeWhile_cons, List.dropWhile_cons, hc, Bool.not_false, if_true] at h1 h2
      constructor
      · unfold whitespaceTokens
        rw [← pieces_dropWhile_sep, hs, pieces_cons_not_sep _ _ _ hc, h1, h2]
      · have l1 : (iss.dropWhile isspace).length ≤ iss.length :=
          (List.dropWhile_sublist _).length_le
        have l2 : (cs.dropWhile (fun c => !isspace c)).length ≤ cs.length :=
          (List.dropWhile_sublist _).length_le
        rw [hs] at l1
        rw [← h2]
        simp only [List.length_cons] at l1
        omega

theorem wordCountsLoop_eq_foldl (fuel : Nat) (iss : Str) (counts : StdMap Nat)
    (h : iss.length ≤ fuel) :
    wordCountsLoop fuel iss counts = (whitespaceTokens iss).foldl countWord counts := by
  induction fuel generalizing iss counts with
  | zero =>
    have : iss = [] := List.length_eq_zero.mp (Nat.le_zero.mp h)
    subst this
    simp [wordCountsLoop, whitespaceTokens, pieces_nil]
  | succ n ih =>
    unfold wordCountsLoop
    cases hx : extractWord iss with
    | none => simp [extractWord_none iss hx]
    | some p =>
      obtain ⟨word, rest⟩ := p
      obtain ⟨h1, h2⟩ := extractWord_some iss word rest hx
      simp only
      rw [ih rest _ (by omega), h1, List.foldl_cons]

/-- The loop of `wordCounts` terminates within its fuel: the result is the fold
of `countWord` over the white-space-separated tokens of the text. -/
theorem wordCounts_eq_foldl (text : Str) :
    wordCounts text = (whitespaceTokens text).foldl countWord [] :=
  wordCountsLoop_eq_foldl _ _ _ (Nat.le_refl _)

/-! ## Theorems: `std::map` -/

theorem mapFind_eq_none_of_lt {V : Type} (m : StdMap V) (key : Str)
    (h : ∀ p ∈ m, key < p.1) : mapFind m key = none := by
  induction m with
  | nil => rfl
  | cons p rest ih =>
    obtain ⟨k, v⟩ := p
    have hk : key < k := h (k, v) (List.mem_cons_self _ _)
    unfold mapFind
    rw [if_neg (ne_of_lt hk)]
    exact ih (fun q hq => h q (List.mem_cons_of_mem _ hq))

theorem mem_mapModify {V : Type} (dflt : V) (f : V → V) (key : Str) (m : StdMap V)
    (p : Str × V) (hp : p ∈ mapModify dflt f key m) : p.1 = key ∨ p ∈ m := by
  induction m with
  | nil =>
    simp only [mapModify, List.mem_singleton] at hp
    left; rw [hp]
  | cons q rest ih =>
    obtain ⟨k, v⟩ := q
    unfold mapModify at hp
    split_ifs at hp with h1 h2
    · rcases List.mem_cons.mp hp with h | h
      · left; rw [h]
      · right; exact h
    · rcases List.mem_cons.mp hp with h | h
      · right; rw [h]; exact List.mem_cons_self _ _
      · rcases ih h with h3 | h3
        · left; exact h3
        · right; exact List.mem_cons_of_mem _ h3
    · have hk : key = k := le_antisymm (not_lt.mp h2) (not_lt.mp h1)
      rcases List.mem_cons.mp hp with h | h
      · left; rw [h, hk]
      · right; exact List.mem_cons_of_mem _ h

theorem keysAscending_mapModify {V : Type} (dflt : V) (f : V → V) (key : Str) (m : StdMap V)
    (hm : KeysAscending m) : KeysAscending (mapModify dflt f key m) := by
  induction m with
  | nil => simp [mapModify, KeysAscending]
  | cons q rest ih =>
    obtain ⟨k, v⟩ := q
    unfold KeysAscending at hm ih ⊢
    rw [List.pairwise_cons] at hm
    obtain ⟨hk, hrest⟩ := hm
    unfold mapModify
    split_ifs with h1 h2
    · rw [List.pairwise_cons]
      refine ⟨fun p hp => ?_, List.pairwise_cons.mpr ⟨hk, hrest⟩⟩
      rcases List.mem_cons.mp hp with h | h
      · rw [h]; exact h1
      · exact lt_trans h1 (hk p h)
    · rw [List.pairwise_cons]
      refine ⟨fun p hp => ?_, ih hrest⟩
      rcases mem_mapModify dflt f key rest p hp with h | h
      · rw [h]; exact h2
      · exact hk p h
    · rw [List.pairwise_cons]
      exact ⟨hk, hrest⟩

theorem mapFind_mapModify {V : Type} (dflt : V) (f : V → V) (key : Str) (m : StdMap V)
    (hm : KeysAscending m) (k : Str) :
    mapFind (mapModify dflt f key m) k =
      if k = key then some (f ((mapFind m key).getD dflt)) else mapFind m k := by
  induction m with
  | nil =>
    simp only [mapModify, mapFind]
    split_ifs <;> simp
  | cons q rest ih =>
    obtain ⟨k0, v0⟩ := q
    unfold KeysAscending at hm ih
    rw [List.pairwise_cons] at hm
    obtain ⟨hk, hrest⟩ := hm
    have hfind : ∀ (w : V) (l : StdMap V) (x : Str),
        mapFind ((k0, w) :: l) x = if x = k0 then some w else mapFind l x := by
      intro w l x; rfl
    unfold mapModify
    by_cases h1 : key < k0
    · rw [if_pos h1]
      have hnone : mapFind ((k0, v0) :: rest) key = none :=
        mapFind_eq_none_of_lt _ _ (fun p hp => by
          rcases List.mem_cons.mp hp with h | h
          · rw [h]; exact h1
          · exact lt_trans h1 (hk p h))
      rw [hnone]
      by_cases h3 : k = key
      · simp [mapFind, h3]
      · rw [if_neg h3]
        conv_lhs => unfold mapFind
        rw [if_neg h3]
    · rw [if_neg h1]
      by_cases h2 : k0 < key
      · rw [if_pos h2, hfind, ih hrest, hfind, hfind, if_neg (ne_of_gt h2)]
        by_cases h3 : k = key
        · subst h3
          simp [ne_of_gt h2]
        · rw [if_neg h3, if_neg h3]
      · rw [if_neg h2]
        have hk0 : key = k0 := le_antisymm (not_lt.mp h2) (not_lt.mp h1)
        subst hk0
        rw [hfind, hfind, hfind, if_pos rfl]
        by_cases h3 : k = key
        · rw [if_pos h3, if_pos h3]; rfl
        · rw [if_neg h3, if_neg h3, if_neg h3]

/-! ## Theorems: `wordCounts` -/

theorem isStopWord_iff (word : Str) (l : List Str) : isStopWord word l = true ↔ word ∈ l := by
  induction l with
  | nil => simp [isStopWord]
  | cons s rest ih =>
    unfold isStopWord
    by_cases h : word = s
    · simp [h]
    · simp [h, ih]

theorem keysAscending_countWord (m : StdMap Nat) (word : Str) (hm : KeysAscending m) :
    KeysAscending (countWord m word) := by
  unfold countWord
  split_ifs
  · exact hm
  · exact keysAscending_mapModify _ _ _ _ hm

theorem mapFind_countWord (m : StdMap Nat) (word : Str) (hm : KeysAscending m) (w : Str) :
    mapFind (countWord m word) w =
      if w = word ∧ word ∉ stopWords then some ((mapFind m w).getD 0 + 1) else mapFind m w := by
  unfold countWord
  by_cases hs : isStopWord word stopWords = true
  · rw [if_pos hs, if_neg]
    rintro ⟨_, h2⟩
    exact h2 ((isStopWord_iff _ _).mp hs)
  · rw [if_neg hs, mapFind_mapModify _ _ _ _ hm]
    have hns : word ∉ stopWords := fun h => hs ((isStopWord_iff _ _).mpr h)
    by_cases hw : w = word
    · subst hw; simp [hns]
    · simp [hw]

theorem foldl_countWord (ts : List Str) (m : StdMap Nat) (hm : KeysAscending m) (w : Str) :
    KeysAscending (ts.foldl countWord m) ∧
    mapFind (ts.foldl countWord m) w =
      if w ∈ stopWords ∨ ts.count w = 0 then mapFind m w
      else some ((mapFind m w).getD 0 + ts.count w) := by
  induction ts generalizing m with
  | nil => simp [hm]
  | cons t ts ih =>
    rw [List.foldl_cons]
    obtain ⟨h1, h2⟩ := ih (countWord m t) (keysAscending_countWord m t hm)
    refine ⟨h1, ?_⟩
    rw [h2, mapFind_countWord m t hm w]
    by_cases hs : w ∈ stopWords
    · have : ¬ (w = t ∧ t ∉ stopWords) := by
        rintro ⟨rfl, h⟩; exact h hs
      simp [hs, this]
    · by_cases hw : w = t
      · subst hw
        simp only [hs, false_or, not_false_eq_true, and_self, if_true, List.count_cons_self,
          Option.getD_some]
        by_cases hc : ts.count w = 0
        · simp [hc]
        · simp [hc]; omega
      · have hne : (t == w) = false := by
          simp only [beq_eq_false_iff_ne, ne_eq]
          exact fun h => hw h.symm
        simp [hs, hw, List.count_cons, hne]

theorem wordCounts_keysAscending (text : Str) : KeysAscending (wordCounts text) := by
  rw [wordCounts_eq_foldl]
  exact (foldl_countWord (whitespaceTokens text) [] List.Pairwise.nil []).1

theorem mapFind_wordCounts (text w : Str) :
    mapFind (wordCounts text) w =
      if w ∈ stopWords ∨ (whitespaceTokens text).count w = 0 then none
      else some ((whitespaceTokens text).count w) := by
  rw [wordCounts_eq_foldl]
  rw [(foldl_countWord (whitespaceTokens text) [] List.Pairwise.nil w).2]
  simp [mapFind]

theorem char_le_iff (a b : Char) : a ≤ b ↔ a.toNat ≤ b.toNat := by
  show a.val ≤ b.val ↔ _
  rw [UInt32.le_def]; rfl

theorem isspace_ofNat_upper (n : Nat) (h1 : 97 ≤ n) (h2 : n ≤ 122) :
    isspace (Char.ofNat (n - 32)) = false := by
  interval_cases n <;> decide

theorem isspace_eq_false_of_toNat (c : Char) (h : 33 ≤ c.toNat) : isspace c = false := by
  unfold isspace
  have h1 : (c == ' ') = false := by
    rw [beq_eq_false_iff_ne]
    intro hc
    rw [hc] at h
    exact absurd h (by decide)
  rw [h1]
  simp only [Bool.false_or, Bool.and_eq_false_imp, decide_eq_true_eq, decide_eq_false_iff_not]
  omega

theorem isspace_cleanChar (c : Char) : isspace (cleanChar c) = !isalnum c := by
  unfold cleanChar
  by_cases h : isalnum c = true
  · rw [if_pos h, h]
    unfold toupper
    by_cases hl : islower c = true
    · rw [if_pos hl]
      simp only [islower, Bool.and_eq_true, decide_eq_true_eq, char_le_iff] at hl
      have := isspace_ofNat_upper c.toNat hl.1 hl.2
      simpa using this
    · rw [if_neg hl]
      simp only [isalnum, isupper, islower, isdigit, Bool.or_eq_true, Bool.and_eq_true,
        decide_eq_true_eq, char_le_iff] at h
      have : 33 ≤ c.toNat := by
        rcases h with (h | h) | h
        · exact le_trans (by decide) h.1
        · exact le_trans (by decide) h.1
        · exact le_trans (by decide) h.1
      simpa using isspace_eq_false_of_toNat c this
  · rw [if_neg h]
    simp only [Bool.not_eq_true] at h
    rw [h]
    decide

theorem takeWhile_map_cleanChar (cs : Str) :
    (cs.map cleanChar).takeWhile (fun c => !isspace c) =
      (cs.takeWhile (fun c => c.isAlphanum)).map Char.toUpper := by
  induction cs with
  | nil => rfl
  | cons c cs ih =>
    rw [List.map_cons, List.takeWhile_cons, List.takeWhile_cons, isspace_cleanChar,
      ← isalnum_eq]
    by_cases h : isalnum c = true
    · simp [h, ih, cleanChar, toupper_eq]
    · simp [h]

theorem dropWhile_map_cleanChar (cs : Str) :
    (cs.map cleanChar).dropWhile (fun c => !isspace c) =
      (cs.dropWhile (fun c => c.isAlphanum)).map cleanChar := by
  induction cs with
  | nil => rfl
  | cons c cs ih =>
    rw [List.map_cons, List.dropWhile_cons, List.dropWhile_cons, isspace_cleanChar,
      ← isalnum_eq]
    by_cases h : isalnum c = true
    · simp [h, ih]
    · simp [h]

theorem pieces_map_cleanChar (n : Nat) (text : Str) (hn : text.length ≤ n) :
    pieces isspace (text.map cleanChar) =
      (pieces (fun c => !c.isAlphanum) text).map (fun r => r.map Char.toUpper) := by
  induction n generalizing text with
  | zero =>
    have : text = [] := List.length_eq_zero.mp (Nat.le_zero.mp hn)
    subst this
    simp [pieces_nil]
  | succ n ih =>
    cases text with
    | nil => simp [pieces_nil]
    | cons c cs =>
      simp only [List.length_cons, Nat.add_le_add_iff_right] at hn
      by_cases h : isalnum c = true
      · have hsp : isspace (cleanChar c) = false := by rw [isspace_cleanChar, h]; rfl
        have hal : (fun c : Char => !c.isAlphanum) c = false := by
          simp only [← isalnum_eq, h]; rfl
        rw [List.map_cons, pieces_cons_not_sep _ _ _ hsp, pieces_cons_not_sep _ _ _ hal,
          List.map_cons, takeWhile_map_cleanChar, dropWhile_map_cleanChar]
        have hlen : (cs.dropWhile (fun c => c.isAlphanum)).length ≤ n :=
          le_trans (List.dropWhile_sublist _).length_le hn
        have e1 : (fun c : Char => !(fun c : Char => !c.isAlphanum) c) =
            (fun c : Char => c.isAlphanum) := by
          funext x; simp
        rw [e1, ih _ hlen]
        simp [cleanChar, h, toupper_eq]
      · have hsp : isspace (cleanChar c) = true := by
          rw [isspace_cleanChar]; simpa using h
        have hal : (fun c : Char => !c.isAlphanum) c = true := by
          simp only [← isalnum_eq]; simpa using h
        rw [List.map_cons, pieces_cons_sep _ _ _ hsp, pieces_cons_sep _ _ _ hal, ih cs hn]

/-- The tokens `wordCounts` reads from a cleaned text are the maximal
alphanumeric runs of the raw text, upper-cased. -/
theorem whitespaceTokens_clean (text : Str) :
    whitespaceTokens (clean text) = (alnumRuns text).map (fun r => r.map Char.toUpper) := by
  rw [clean_eq_map]
  exact pieces_map_cleanChar text.length text (Nat.le_refl _)

theorem mapFind_ne_none_of_mem {V : Type} (m : StdMap V) (p : Str × V) (hp : p ∈ m) :
    mapFind m p.1 ≠ none := by
  induction m with
  | nil => cases hp
  | cons q rest ih =>
    obtain ⟨k, v⟩ := q
    unfold mapFind
    by_cases h : p.1 = k
    · simp [h]
    · rw [if_neg h]
      rcases List.mem_cons.mp hp with h1 | h1
      · exact absurd (by rw [h1]) h
      · exact ih h1

theorem mem_pieces (sep : Char → Bool) (n : Nat) (s : Str) (hn : s.length ≤ n) (r : Str)
    (hr : r ∈ pieces sep s) : r ≠ [] ∧ ∀ c ∈ r, sep c = false := by
  induction n generalizing s with
  | zero =>
    have : s = [] := List.length_eq_zero.mp (Nat.le_zero.mp hn)
    subst this
    simp [pieces_nil] at hr
  | succ n ih =>
    cases s with
    | nil => simp [pieces_nil] at hr
    | cons c cs =>
      simp only [List.length_cons, Nat.add_le_add_iff_right] at hn
      by_cases h : sep c = true
      · rw [pieces_cons_sep _ _ _ h] at hr
        exact ih cs hn hr
      · simp only [Bool.not_eq_true] at h
        rw [pieces_cons_not_sep _ _ _ h] at hr
        rcases List.mem_cons.mp hr with h1 | h1
        · subst h1
          refine ⟨by simp, fun x hx => ?_⟩
          rcases List.mem_cons.mp hx with h2 | h2
          · rw [h2]; exact h
          · have := List.mem_takeWhile_imp h2
            simpa using this
        · exact ih _ (le_trans (List.dropWhile_sublist _).length_le hn) h1

theorem toUpper_isUpper_or_isDigit (c : Char) (h : c.isAlphanum = true) :
    (c.toUpper.isUpper || c.toUpper.isDigit) = true := by
  have hc : c = Char.ofNat c.toNat := (Char.ofNat_toNat c).symm
  have hb : (48 ≤ c.toNat ∧ c.toNat ≤ 57) ∨ (65 ≤ c.toNat ∧ c.toNat ≤ 90) ∨
      (97 ≤ c.toNat ∧ c.toNat ≤ 122) := by
    rw [← isalnum_eq] at h
    simp only [isalnum, isupper, islower, isdigit, Bool.or_eq_true, Bool.and_eq_true,
      decide_eq_true_eq, char_le_iff] at h
    rcases h with (h | h) | h
    · right; left; exact h
    · right; right; exact h
    · left; exact h
  rw [hc]
  generalize c.toNat = n at hb
  rcases hb with ⟨h1, h2⟩ | ⟨h1, h2⟩ | ⟨h1, h2⟩ <;> interval_cases n <;> decide

/-- C3: the keys of `wordCounts(clean(text))` are non-empty words of upper-case
letters and digits, and a word is a key with count `c` exactly when it is not a
stop word and `c > 0` maximal alphanumeric runs of `text` upper-case to it. -/
theorem wordCounts_clean_spec (text w : Str) :
    (wordCounts (clean text)).all
        (fun p => decide (p.1 ≠ []) && p.1.all (fun ch => ch.isUpper || ch.isDigit)) = true ∧
    mapFind (wordCounts (clean text)) w =
      if w ∈ stopWords ∨ (alnumRuns text).countP (fun r => r.map Char.toUpper = w) = 0 then none
      else some ((alnumRuns text).countP (fun r => r.map Char.toUpper = w)) := by
  have hcount : ∀ v : Str, (whitespaceTokens (clean text)).count v =
      (alnumRuns text).countP (fun r => r.map Char.toUpper = v) := by
    intro v
    rw [whitespaceTokens_clean, List.count, List.countP_map]
    congr 1
    funext r
    simp only [Function.comp_apply]
    by_cases h : List.map Char.toUpper r = v <;> simp [h]
  constructor
  · rw [List.all_eq_true]
    intro p hp
    have h1 := mapFind_ne_none_of_mem _ p hp
    rw [mapFind_wordCounts (clean text) p.1] at h1
    have h2 : (whitespaceTokens (clean text)).count p.1 ≠ 0 := by
      intro h0
      exact h1 (by rw [if_pos (Or.inr h0)])
    have h3 : p.1 ∈ whitespaceTokens (clean text) :=
      List.count_pos_iff.mp (Nat.pos_of_ne_zero h2)
    rw [whitespaceTokens_clean, List.mem_map] at h3
    obtain ⟨r, hr, hrp⟩ := h3
    obtain ⟨hne, hall⟩ := mem_pieces _ _ text (Nat.le_refl _) r hr
    rw [← hrp]
    simp only [ne_eq, List.map_eq_nil_iff, hne, not_false_eq_true, decide_True, Bool.true_and,
      List.all_eq_true, List.mem_map, forall_exists_index, and_imp]
    intro ch x hx hch
    rw [← hch]
    apply toUpper_isUpper_or_isDigit
    simpa using hall x hx
  · rw [mapFind_wordCounts (clean text) w, hcount]

/-! ## Theorems: `normalizeFreqs` -/

theorem mapModify_append_of_lt {V : Type} (dflt : V) (f : V → V) (key : Str) (acc : StdMap V)
    (h : ∀ p ∈ acc, p.1 < key) : mapModify dflt f key acc = acc ++ [(key, f dflt)] := by
  induction acc with
  | nil => rfl
  | cons q rest ih =>
    obtain ⟨k, v⟩ := q
    have hk : k < key := h (k, v) (List.mem_cons_self _ _)
    unfold mapModify
    rw [if_neg (not_lt_of_gt hk), if_pos hk, ih (fun p hp => h p (List.mem_cons_of_mem _ hp))]
    rfl

theorem foldl_mapModify_ascending {V W : Type} (dflt : W) (g : Str × V → W)
    (rest : StdMap V) (acc : StdMap W)
    (hacc : ∀ a ∈ acc, ∀ r ∈ rest, a.1 < r.1) (hrest : KeysAscending rest) :
    rest.foldl (fun freqs pair => mapModify dflt (fun _ => g pair) pair.1 freqs) acc =
      acc ++ rest.map (fun pair => (pair.1, g pair)) := by
  induction rest generalizing acc with
  | nil => simp
  | cons r rs ih =>
    unfold KeysAscending at hrest ih
    rw [List.pairwise_cons] at hrest
    rw [List.foldl_cons, mapModify_append_of_lt _ _ _ _
      (fun a ha => hacc a ha r (List.mem_cons_self _ _))]
    rw [ih _ ?_ hrest.2]
    · simp
    · intro a ha x hx
      rcases List.mem_append.mp ha with h | h
      · exact hacc a h x (List.mem_cons_of_mem _ hx)
      · rw [List.mem_singleton] at h
        rw [h]
        exact hrest.1 x hx

/-- On a well-formed map `normalizeFreqs` rewrites every value in place. -/
theorem normalizeFreqs_eq_map {α : Type} [Zero α] [Div α] [NatCast α]
    (counts : StdMap Nat) (total : Nat) (h : KeysAscending counts) :
    normalizeFreqs (α := α) counts total =
      counts.map (fun pair => (pair.1, (pair.2 : α) / (total : α))) := by
  unfold normalizeFreqs
  rw [foldl_mapModify_ascending (0 : α) (fun pair : Str × Nat => (pair.2 : α) / (total : α))
    counts [] (fun a ha => by cases ha) h]
  rfl

theorem foldl_add_snd (counts : StdMap Nat) (n : Nat) :
    counts.foldl (fun total pair => total + pair.2) n = n + (counts.map Prod.snd).sum := by
  induction counts generalizing n with
  | nil => simp
  | cons p rest ih =>
    rw [List.foldl_cons, ih]
    simp [Nat.add_assoc]

theorem totalCount_eq_sum (counts : StdMap Nat) :
    totalCount counts = (counts.map Prod.snd).sum := by
  unfold totalCount
  rw [foldl_add_snd]
  simp

theorem mem_of_mapFind_eq_some {V : Type} (m : StdMap V) (k : Str) (v : V)
    (h : mapFind m k = some v) : (k, v) ∈ m := by
  induction m with
  | nil => cases h
  | cons q rest ih =>
    obtain ⟨k0, v0⟩ := q
    unfold mapFind at h
    split_ifs at h with hk
    · simp only [Option.some.injEq] at h
      rw [hk, h]
      exact List.mem_cons_self _ _
    · exact List.mem_cons_of_mem _ (ih h)

theorem sum_map_div_rat (l : List Nat) (t : ℚ) :
    (l.map (fun c : Nat => (c : ℚ) / t)).sum = ((l.sum : Nat) : ℚ) / t := by
  induction l with
  | nil => simp
  | cons c cs ih =>
    rw [List.map_cons, List.sum_cons, List.sum_cons, ih]
    push_cast
    ring

theorem totalCount_pos_of_token (text : Str)
    (h : ∃ t ∈ whitespaceTokens text, t ∉ stopWords) :
    0 < totalCount (wordCounts text) := by
  obtain ⟨t, ht, hs⟩ := h
  have hc : (whitespaceTokens text).count t ≠ 0 :=
    Nat.pos_iff_ne_zero.mp (List.count_pos_iff.mpr ht)
  have hf := mapFind_wordCounts text t
  rw [if_neg (by rintro (h | h); exact hs h; exact hc h)] at hf
  have hmem := mem_of_mapFind_eq_some _ _ _ hf
  rw [totalCount_eq_sum]
  have : (whitespaceTokens text).count t ≤ ((wordCounts text).map Prod.snd).sum :=
    List.single_le_sum (fun _ _ => Nat.zero_le _) _ (List.mem_map.mpr ⟨_, hmem, rfl⟩)
  omega

/-- C4: for a document with at least one non-stop token, the frequencies
`normalizeFreqs(counts, total)` of the full mapping, with `total` the sum of the
counts as in `main`, add up to exactly 1 in exact arithmetic. -/
theorem normalizeFreqs_sum_eq_one (content : Str)
    (h : ∃ t ∈ whitespaceTokens (clean content), t ∉ stopWords) :
    ((normalizeFreqs (α := ℚ) (wordCounts (clean content))
        (totalCount (wordCounts (clean content)))).map Prod.snd).sum = 1 := by
  have hpos := totalCount_pos_of_token (clean content) h
  rw [normalizeFreqs_eq_map _ _ (wordCounts_keysAscending (clean content)), List.map_map]
  have e : (Prod.snd ∘ fun pair : Str × Nat =>
      (pair.1, (pair.2 : ℚ) / ((totalCount (wordCounts (clean content)) : Nat) : ℚ))) =
      (fun c : Nat => (c : ℚ) / ((totalCount (wordCounts (clean content)) : Nat) : ℚ)) ∘
        Prod.snd := by
    funext p; rfl
  rw [e, ← List.map_map, sum_map_div_rat, ← totalCount_eq_sum]
  have : ((totalCount (wordCounts (clean content)) : Nat) : ℚ) ≠ 0 := by
    exact_mod_cast Nat.pos_iff_ne_zero.mp hpos
  exact div_self this

/-- C4, at the document `"the cat sat"`. -/
theorem normalizeFreqs_sum_eq_one_witness :
    (∃ t ∈ whitespaceTokens (clean "the cat sat".toList), t ∉ stopWords) ∧
    ((normalizeFreqs (α := ℚ) (wordCounts (clean "the cat sat".toList))
        (totalCount (wordCounts (clean "the cat sat".toList)))).map Prod.snd).sum = 1 :=
  ⟨⟨"CAT".toList, by decide, by decide⟩,
    normalizeFreqs_sum_eq_one "the cat sat".toList ⟨"CAT".toList, by decide, by decide⟩⟩

/-! ## Theorems: `similarityScore` -/

theorem foldl_inner_eq {α : Type} [AddCommMonoid α] (word1 : Str × α)
    (words2 : List (Str × α)) (sim : α) :
    words2.foldl
        (fun sim word2 => if word1.1 = word2.1 then sim + (word1.2 + word2.2) else sim) sim =
      sim + (words2.map (fun word2 => if word1.1 = word2.1 then word1.2 + word2.2 else 0)).sum := by
  induction words2 generalizing sim with
  | nil => simp
  | cons b bs ih =>
    rw [List.foldl_cons, ih, List.map_cons, List.sum_cons]
    by_cases h : word1.1 = b.1
    · simp only [h, if_true]; rw [add_assoc]
    · simp only [h, if_false, zero_add]

theorem foldl_outer_eq {α : Type} [AddCommMonoid α] (words1 words2 : List (Str × α)) (sim : α) :
    words1.foldl
        (fun sim word1 =>
          words2.foldl
            (fun sim word2 => if word1.1 = word2.1 then sim + (word1.2 + word2.2) else sim)
            sim)
        sim =
      sim + (words1.map (fun word1 =>
        (words2.map (fun word2 =>
          if word1.1 = word2.1 then word1.2 + word2.2 else 0)).sum)).sum := by
  induction words1 generalizing sim with
  | nil => simp
  | cons a as ih =>
    rw [List.foldl_cons, ih, foldl_inner_eq, List.map_cons, List.sum_cons, add_assoc]

/-- In exact arithmetic the nested loop computes a double sum. -/
theorem similarityScore_eq_sum {α : Type} [AddCommMonoid α] (words1 words2 : List (Str × α)) :
    similarityScore words1 words2 =
      (words1.map (fun word1 =>
        (words2.map (fun word2 =>
          if word1.1 = word2.1 then word1.2 + word2.2 else 0)).sum)).sum := by
  unfold similarityScore
  rw [foldl_outer_eq, zero_add]

theorem sum_map_sum_swap {α β γ : Type} [AddCommMonoid γ] (g : α → β → γ)
    (as : List α) (bs : List β) :
    (as.map (fun a => (bs.map (fun b => g a b)).sum)).sum =
      (bs.map (fun b => (as.map (fun a => g a b)).sum)).sum := by
  induction as with
  | nil =>
    simp only [List.map_nil, List.sum_nil]
    induction bs with
    | nil => rfl
    | cons b bs ih => rw [List.map_cons, List.sum_cons, ← ih, add_zero]
  | cons a as ih =>
    simp only [List.map_cons, List.sum_cons]
    rw [ih]
    clear ih
    induction bs with
    | nil => simp
    | cons b bs ihb =>
      simp only [List.map_cons, List.sum_cons]
      rw [← ihb]
      abel

/-- In exact arithmetic the score does not depend on the order of the arguments. -/
theorem similarityScore_comm_of_exact {α : Type} [AddCommMonoid α]
    (words1 words2 : List (Str × α)) :
    similarityScore words1 words2 = similarityScore words2 words1 := by
  rw [similarityScore_eq_sum, similarityScore_eq_sum,
    sum_map_sum_swap (fun (a b : Str × α) => if a.1 = b.1 then a.2 + b.2 else 0)]
  congr 1
  apply List.map_congr_left
  intro b _
  congr 1
  apply List.map_congr_left
  intro a _
  by_cases h : a.1 = b.1
  · rw [if_pos h, if_pos h.symm, add_comm]
  · rw [if_neg h, if_neg (fun h2 => h h2.symm)]

theorem mapFind_of_mem_nodup {V : Type} (m : List (Str × V)) (hm : (m.map Prod.fst).Nodup)
    (p : Str × V) (hp : p ∈ m) : mapFind m p.1 = some p.2 := by
  induction m with
  | nil => cases hp
  | cons q rest ih =>
    obtain ⟨k, v⟩ := q
    rw [List.map_cons, List.nodup_cons] at hm
    unfold mapFind
    rcases List.mem_cons.mp hp with h | h
    · rw [h]; simp
    · have hne : p.1 ≠ k := by
        intro hk
        have hmem : p.1 ∈ rest.map Prod.fst := List.mem_map_of_mem Prod.fst h
        rw [hk] at hmem
        exact hm.1 hmem
      rw [if_neg hne]
      exact ih hm.2 h

theorem mapFind_eq_none_of_not_mem {V : Type} (m : List (Str × V)) (t : Str)
    (h : t ∉ m.map Prod.fst) : mapFind m t = none := by
  induction m with
  | nil => rfl
  | cons q rest ih =>
    obtain ⟨k, v⟩ := q
    rw [List.map_cons, List.mem_cons, not_or] at h
    unfold mapFind
    rw [if_neg h.1]
    exact ih h.2

theorem inner_sum_eq {α : Type} [AddCommMonoid α] (t : Str) (x : α) (words2 : List (Str × α))
    (h2 : (words2.map Prod.fst).Nodup) :
    (words2.map (fun word2 => if t = word2.1 then x + word2.2 else 0)).sum =
      if t ∈ words2.map Prod.fst then x + freqOf words2 t else 0 := by
  induction words2 with
  | nil => simp
  | cons b bs ih =>
    rw [List.map_cons, List.nodup_cons] at h2
    have hcons : List.map Prod.fst (b :: bs) = b.1 :: List.map Prod.fst bs := rfl
    rw [List.map_cons, List.sum_cons, ih h2.2, hcons]
    by_cases h : t = b.1
    · have hn : t ∉ bs.map Prod.fst := h ▸ h2.1
      have hf : freqOf (b :: bs) t = b.2 := by
        obtain ⟨k, v⟩ := b
        simp only at h
        simp [freqOf, mapFind, h]
      rw [if_pos h, if_neg hn, add_zero, if_pos (by rw [List.mem_cons]; exact Or.inl h), hf]
    · have hf : freqOf (b :: bs) t = freqOf bs t := by
        obtain ⟨k, v⟩ := b
        simp only at h
        simp [freqOf, mapFind, h]
      rw [if_neg h, zero_add, hf]
      by_cases hm : t ∈ bs.map Prod.fst
      · rw [if_pos hm, if_pos (List.mem_cons_of_mem _ hm)]
      · rw [if_neg hm, if_neg (by rw [List.mem_cons]; rintro (h3 | h3); exact h h3; exact hm h3)]

/-- With pairwise distinct tokens in each profile, the score is a single sum over
the tokens of the first profile. -/
theorem similarityScore_eq_sum_tokens {α : Type} [AddCommMonoid α]
    (words1 words2 : List (Str × α))
    (h1 : (words1.map Prod.fst).Nodup) (h2 : (words2.map Prod.fst).Nodup) :
    similarityScore words1 words2 =
      ((words1.map Prod.fst).map (fun t =>
        if t ∈ words2.map Prod.fst then freqOf words1 t + freqOf words2 t else 0)).sum := by
  rw [similarityScore_eq_sum, List.map_map]
  congr 1
  apply List.map_congr_left
  intro a ha
  rw [inner_sum_eq a.1 a.2 words2 h2]
  simp only [Function.comp_apply]
  have : freqOf words1 a.1 = a.2 := by
    unfold freqOf
    rw [mapFind_of_mem_nodup words1 h1 a ha]
    rfl
  rw [this]

/-- In exact arithmetic, for profiles whose tokens are pairwise distinct, the
nested loop of `similarityScore` returns the sum, over the tokens occurring in
both profiles, of the two frequencies of the token. -/
theorem similarityScore_eq_intersectionScore (profileA profileB : List (Str × ℚ))
    (hA : (profileA.map Prod.fst).Nodup) (hB : (profileB.map Prod.fst).Nodup) :
    similarityScore profileA profileB = intersectionScore profileA profileB := by
  rw [similarityScore_eq_sum_tokens profileA profileB hA hB]
  unfold intersectionScore
  rw [← Finset.sum_ite_mem, List.sum_toFinset _ hA]
  congr 1
  apply List.map_congr_left
  intro t _
  simp only [List.mem_toFinset]


/-! ## Theorems: sorting routines that meet the contract of `std::sort` -/

theorem insertSorted_perm {α : Type} (comp : α → α → Bool) (x : α) (ys : List α) :
    (insertSorted comp x ys).Perm (x :: ys) := by
  induction ys with
  | nil => exact List.Perm.refl _
  | cons y ys ih =>
    unfold insertSorted
    split_ifs
    · exact List.Perm.refl _
    · exact ((List.Perm.cons y ih).trans (List.Perm.swap x y ys))

theorem foldl_insertSorted_perm {α : Type} (comp : α → α → Bool) (l acc : List α) :
    (l.foldl (fun acc x => insertSorted comp x acc) acc).Perm (acc ++ l) := by
  induction l generalizing acc with
  | nil => simp
  | cons x xs ih =>
    rw [List.foldl_cons]
    refine (ih _).trans ?_
    refine (List.Perm.append_right xs (insertSorted_perm comp x acc)).trans ?_
    simpa using (@List.perm_middle _ x acc xs).symm

theorem mem_insertSorted {α : Type} (comp : α → α → Bool) (x z : α) (ys : List α)
    (h : z ∈ insertSorted comp x ys) : z = x ∨ z ∈ ys :=
  List.mem_cons.mp ((insertSorted_perm comp x ys).subset h)

theorem insertSorted_pairwise {α : Type} (comp : α → α → Bool) (hc : StrictWeakOrdering comp)
    (x : α) (ys : List α) (hys : ys.Pairwise (fun a b => comp b a = false)) :
    (insertSorted comp x ys).Pairwise (fun a b => comp b a = false) := by
  induction ys with
  | nil => simp [insertSorted]
  | cons y ys ih =>
    rw [List.pairwise_cons] at hys
    unfold insertSorted
    split_ifs with hxy
    · refine List.pairwise_cons.mpr ⟨?_, List.pairwise_cons.mpr hys⟩
      intro z hz
      cases hzx : comp z x with
      | false => rfl
      | true =>
        exfalso
        have h1 := hc.trans _ _ _ hzx hxy
        rcases List.mem_cons.mp hz with h | h
        · subst h
          rw [hc.irrefl] at h1
          cases h1
        · rw [hys.1 z h] at h1
          cases h1
    · refine List.pairwise_cons.mpr ⟨?_, ih hys.2⟩
      intro z hz
      rcases mem_insertSorted comp x z ys hz with h | h
      · rw [h]; simpa using hxy
      · exact hys.1 z h

theorem foldl_insertSorted_pairwise {α : Type} (comp : α → α → Bool)
    (hc : StrictWeakOrdering comp) (l acc : List α)
    (h : acc.Pairwise (fun a b => comp b a = false)) :
    (l.foldl (fun acc x => insertSorted comp x acc) acc).Pairwise
      (fun a b => comp b a = false) := by
  induction l generalizing acc with
  | nil => simpa using h
  | cons x xs ih =>
    rw [List.foldl_cons]
    exact ih _ (insertSorted_pairwise comp hc x acc h)

/-- Insertion sort meets the contract of `std::sort`. -/
theorem insertionSort_contract : StdSortContract insertionSort := by
  intro α comp l hc
  constructor
  · simpa [insertionSort] using foldl_insertSorted_perm comp l []
  · exact foldl_insertSorted_pairwise comp hc l [] List.Pairwise.nil

/-- Insertion sort of the reversed range meets the contract of `std::sort`. -/
theorem reversingSort_contract : StdSortContract reversingSort := by
  intro α comp l hc
  obtain ⟨h1, h2⟩ := insertionSort_contract comp l.reverse hc
  exact ⟨h1.trans (List.reverse_perm l), h2⟩

/-! ## Theorems: `topWords` -/

/-- The comparison `a.second > b.second` is a strict weak ordering. -/
theorem byFreqDesc_strictWeakOrdering {α : Type} [LinearOrder α] :
    StrictWeakOrdering (byFreqDesc : Str × α → Str × α → Bool) where
  irrefl := fun a => by simp [byFreqDesc]
  trans := fun a b c h1 h2 => by
    simp only [byFreqDesc, decide_eq_true_eq] at h1 h2 ⊢
    exact lt_trans h2 h1
  incomp_trans := fun a b c h1 h2 h3 h4 => by
    simp only [byFreqDesc, decide_eq_false_iff_not, not_lt] at h1 h2 h3 h4 ⊢
    exact ⟨le_trans h1 h3, le_trans h4 h2⟩

theorem topWords_sublist_perm {α : Type} [LinearOrder α] (sortFn : SortFn) (hS : StdSortContract sortFn) (freqs : StdMap α)
    (n : Int) : ∃ l : List (Str × α), l.Perm freqs ∧ (topWords sortFn freqs n).Sublist l ∧
      l.Pairwise (fun a b => b.2 ≤ a.2) ∧
      topWords sortFn freqs n = l.take (min n (freqs.length : Int)).toNat := by
  refine ⟨sortFn byFreqDesc freqs, (hS _ _ byFreqDesc_strictWeakOrdering).1,
    List.take_sublist _ _, ?_, ?_⟩
  · refine ((hS _ freqs byFreqDesc_strictWeakOrdering).2).imp ?_
    intro a b h
    simpa [byFreqDesc] using h
  · unfold topWords
    simp only
    rw [((hS _ freqs byFreqDesc_strictWeakOrdering).1).length_eq]

theorem topWords_length {α : Type} [LinearOrder α] (sortFn : SortFn) (hS : StdSortContract sortFn) (freqs : StdMap α) (n : Int)
    (hn : 0 ≤ n) : ((topWords sortFn freqs n).length : Int) = min n (freqs.length : Int) := by
  obtain ⟨l, hp, _, _, he⟩ := topWords_sublist_perm sortFn hS freqs n
  rw [he, List.length_take, hp.length_eq]
  have h0 : 0 ≤ min n (freqs.length : Int) := le_min hn (Int.natCast_nonneg _)
  omega

theorem topWords_pairwise {α : Type} [LinearOrder α] (sortFn : SortFn) (hS : StdSortContract sortFn) (freqs : StdMap α) (n : Int) :
    (topWords sortFn freqs n).Pairwise (fun a b => b.2 ≤ a.2) := by
  obtain ⟨l, _, hs, hpw, _⟩ := topWords_sublist_perm sortFn hS freqs n
  exact hpw.sublist hs

/-- C7: for `k ≥ 0`, `topWords(freqs, k)` has exactly `min(k, size of freqs)`
entries, and they are in non-increasing order of frequency. -/
theorem topWords_length_and_order (sortFn : SortFn) (hS : StdSortContract sortFn) (freqs : StdMap ℚ) (k : Int) (hk : 0 ≤ k) :
    ((topWords sortFn freqs k).length : Int) = min k (freqs.length : Int) ∧
    (topWords sortFn freqs k).Sorted (fun a b => a.2 ≥ b.2) :=
  ⟨topWords_length sortFn hS freqs k hk, topWords_pairwise sortFn hS freqs k⟩

/-- C7, at a map of three words and `k = 2`. -/
theorem topWords_length_and_order_witness :
    StdSortContract insertionSort ∧ (0 : Int) ≤ 2 ∧
    ((topWords insertionSort
        ([("CAT".toList, 1 / 4), ("MAT".toList, 1 / 2), ("SAT".toList, 1 / 4)] : StdMap ℚ)
        2).length : Int) = min 2 ((3 : Nat) : Int) ∧
    (topWords insertionSort
        ([("CAT".toList, 1 / 4), ("MAT".toList, 1 / 2), ("SAT".toList, 1 / 4)] : StdMap ℚ)
        2).Sorted (fun a b => a.2 ≥ b.2) :=
  ⟨insertionSort_contract, by decide,
    topWords_length_and_order insertionSort insertionSort_contract _ 2 (by decide)⟩

/-! ## Theorems: bounds on the score -/

theorem sum_ite_token_eq (t : Str) (x : ℚ) (words : List (Str × ℚ))
    (h : (words.map Prod.fst).Nodup) :
    (words.map (fun w => if w.1 = t then x else 0)).sum =
      if t ∈ words.map Prod.fst then x else 0 := by
  induction words with
  | nil => simp
  | cons b bs ih =>
    have hcons : List.map Prod.fst (b :: bs) = b.1 :: List.map Prod.fst bs := rfl
    rw [hcons, List.nodup_cons] at h
    rw [List.map_cons, List.sum_cons, ih h.2, hcons]
    by_cases hb : b.1 = t
    · have hn : t ∉ bs.map Prod.fst := hb ▸ h.1
      rw [if_pos hb, if_neg hn, add_zero, if_pos (by rw [List.mem_cons]; exact Or.inl hb.symm)]
    · rw [if_neg hb, zero_add]
      by_cases hm : t ∈ bs.map Prod.fst
      · rw [if_pos hm, if_pos (List.mem_cons_of_mem _ hm)]
      · rw [if_neg hm, if_neg (by
          rw [List.mem_cons]; rintro (h3 | h3); exact hb h3.symm; exact hm h3)]

/-- The score splits into the part contributed by the first profile and the part
contributed by the second; each is a sum over the shared tokens. -/
theorem similarityScore_split (words1 words2 : List (Str × ℚ))
    (h1 : (words1.map Prod.fst).Nodup) (h2 : (words2.map Prod.fst).Nodup) :
    similarityScore words1 words2 =
      (words1.map (fun a => if a.1 ∈ words2.map Prod.fst then a.2 else 0)).sum +
      (words2.map (fun b => if b.1 ∈ words1.map Prod.fst then b.2 else 0)).sum := by
  rw [similarityScore_eq_sum]
  have e : ∀ a : Str × ℚ,
      (words2.map (fun b => if a.1 = b.1 then a.2 + b.2 else 0)).sum =
        (words2.map (fun b => if b.1 = a.1 then a.2 else 0)).sum +
        (words2.map (fun b => if a.1 = b.1 then b.2 else 0)).sum := by
    intro a
    rw [← List.sum_map_add]
    congr 1
    apply List.map_congr_left
    intro b _
    by_cases h : a.1 = b.1
    · rw [if_pos h, if_pos h.symm, if_pos h]
    · rw [if_neg h, if_neg (fun h3 => h h3.symm), if_neg h, add_zero]
  simp only [e]
  rw [List.sum_map_add]
  congr 1
  · congr 1
    apply List.map_congr_left
    intro a _
    exact sum_ite_token_eq a.1 a.2 words2 h2
  · rw [sum_map_sum_swap (fun (a b : Str × ℚ) => if a.1 = b.1 then b.2 else 0)]
    congr 1
    apply List.map_congr_left
    intro b _
    exact sum_ite_token_eq b.1 b.2 words1 h1

theorem sum_ite_le_sum (words : List (Str × ℚ)) (c : Str × ℚ → Prop) [DecidablePred c]
    (h0 : ∀ p ∈ words, 0 ≤ p.2) :
    0 ≤ (words.map (fun a => if c a then a.2 else 0)).sum ∧
    (words.map (fun a => if c a then a.2 else 0)).sum ≤ (words.map Prod.snd).sum := by
  constructor
  · apply List.sum_nonneg
    intro x hx
    obtain ⟨a, ha, rfl⟩ := List.mem_map.mp hx
    split_ifs
    · exact h0 a ha
    · exact le_refl _
  · apply List.sum_le_sum
    intro a ha
    split_ifs
    · exact le_refl _
    · exact h0 a ha

/-- For profiles with pairwise distinct tokens and non-negative frequencies the
score is at least 0 and at most the sum of all listed frequencies. -/
theorem similarityScore_bounds (words1 words2 : List (Str × ℚ))
    (h1 : (words1.map Prod.fst).Nodup) (h2 : (words2.map Prod.fst).Nodup)
    (p1 : ∀ p ∈ words1, 0 ≤ p.2) (p2 : ∀ p ∈ words2, 0 ≤ p.2) :
    0 ≤ similarityScore words1 words2 ∧
    similarityScore words1 words2 ≤ (words1.map Prod.snd).sum + (words2.map Prod.snd).sum := by
  rw [similarityScore_split words1 words2 h1 h2]
  have a1 := sum_ite_le_sum words1 (fun a => a.1 ∈ words2.map Prod.fst) p1
  have a2 := sum_ite_le_sum words2 (fun b => b.1 ∈ words1.map Prod.fst) p2
  exact ⟨add_nonneg a1.1 a2.1, add_le_add a1.2 a2.2⟩

/-- The score of a profile with itself is twice the sum of its frequencies. -/
theorem similarityScore_self (words : List (Str × ℚ)) (h : (words.map Prod.fst).Nodup) :
    similarityScore words words = 2 * (words.map Prod.snd).sum := by
  rw [similarityScore_split words words h h]
  have e : (words.map (fun a => if a.1 ∈ words.map Prod.fst then a.2 else 0)) =
      words.map Prod.snd := by
    apply List.map_congr_left
    intro a ha
    rw [if_pos (List.mem_map_of_mem Prod.fst ha)]
  rw [e]
  ring

/-! ## Theorems: the profile of a document -/

theorem nodup_keys_of_keysAscending {V : Type} (m : StdMap V) (h : KeysAscending m) :
    (m.map Prod.fst).Nodup := by
  unfold KeysAscending at h
  rw [List.Nodup, List.pairwise_map]
  exact h.imp (fun hab => ne_of_lt hab)

/-- The frequency mapping `main` computes for a document, in exact arithmetic:
every count divided by the sum of the counts. -/
theorem documentFreqs_eq (content : Str) :
    normalizeFreqs (α := ℚ) (wordCounts (clean content))
        (totalCount (wordCounts (clean content))) =
      (wordCounts (clean content)).map (fun pair =>
        (pair.1, (pair.2 : ℚ) / ((totalCount (wordCounts (clean content)) : Nat) : ℚ))) :=
  normalizeFreqs_eq_map _ _ (wordCounts_keysAscending _)

theorem documentFreqs_sum (content : Str) :
    ((normalizeFreqs (α := ℚ) (wordCounts (clean content))
        (totalCount (wordCounts (clean content)))).map Prod.snd).sum =
      if totalCount (wordCounts (clean content)) = 0 then 0 else 1 := by
  rw [documentFreqs_eq, List.map_map]
  have e : (Prod.snd ∘ fun pair : Str × Nat =>
      (pair.1, (pair.2 : ℚ) / ((totalCount (wordCounts (clean content)) : Nat) : ℚ))) =
      (fun c : Nat => (c : ℚ) / ((totalCount (wordCounts (clean content)) : Nat) : ℚ)) ∘
        Prod.snd := by
    funext p; rfl
  rw [e, ← List.map_map, sum_map_div_rat, ← totalCount_eq_sum]
  split_ifs with h
  · rw [h]; simp
  · exact div_self (by exact_mod_cast h)

/-- What every profile produced by the pipeline satisfies: it is an initial
segment of a rearrangement of the full frequency mapping; its tokens are
pairwise distinct, its frequencies are non-negative and add up to at most 1. -/
theorem documentProfile_facts (sortFn : SortFn) (hS : StdSortContract sortFn) (n : Int) (content : Str) :
    ((documentProfile (α := ℚ) sortFn n content).map Prod.fst).Nodup ∧
    (∀ p ∈ documentProfile (α := ℚ) sortFn n content, 0 ≤ p.2) ∧
    ((documentProfile (α := ℚ) sortFn n content).map Prod.snd).sum ≤ 1 := by
  obtain ⟨l, hperm, hsub, _, _⟩ := topWords_sublist_perm sortFn hS
    (normalizeFreqs (α := ℚ) (wordCounts (clean content))
      (totalCount (wordCounts (clean content)))) n
  have hnonneg : ∀ p ∈ l, (0 : ℚ) ≤ p.2 := by
    intro p hp
    have hp2 := hperm.subset hp
    rw [documentFreqs_eq] at hp2
    obtain ⟨q, _, rfl⟩ := List.mem_map.mp hp2
    exact div_nonneg (Nat.cast_nonneg _) (Nat.cast_nonneg _)
  refine ⟨?_, ?_, ?_⟩
  · have hl : (l.map Prod.fst).Nodup := by
      rw [(hperm.map Prod.fst).nodup_iff, documentFreqs_eq, List.map_map]
      exact nodup_keys_of_keysAscending _ (wordCounts_keysAscending _)
    exact (hsub.map Prod.fst).nodup hl
  · intro p hp
    exact hnonneg p (hsub.subset hp)
  · have h1 : ((documentProfile (α := ℚ) sortFn n content).map Prod.snd).sum ≤
        (l.map Prod.snd).sum := by
      apply List.Sublist.sum_le_sum (hsub.map Prod.snd)
      intro x hx
      obtain ⟨p, hp, rfl⟩ := List.mem_map.mp hx
      exact hnonneg p hp
    rw [(hperm.map Prod.snd).sum_eq, documentFreqs_sum] at h1
    refine le_trans h1 ?_
    split_ifs <;> norm_num

/-- Every count stored by `wordCounts` is at least 1. -/
theorem wordCounts_values_pos (text : Str) (p : Str × Nat) (hp : p ∈ wordCounts text) :
    0 < p.2 := by
  have h := mapFind_of_mem_nodup (wordCounts text)
    (nodup_keys_of_keysAscending _ (wordCounts_keysAscending text)) p hp
  rw [mapFind_wordCounts] at h
  split_ifs at h with hc
  · simp only [Option.some.injEq] at h
    rw [← h]
    exact Nat.pos_of_ne_zero (fun h0 => hc (Or.inr h0))

/-- The total of `main` is 0 only for an empty map of counts. -/
theorem wordCounts_eq_nil_of_totalCount_eq_zero (text : Str)
    (h : totalCount (wordCounts text) = 0) : wordCounts text = [] := by
  cases hc : wordCounts text with
  | nil => rfl
  | cons p rest =>
    exfalso
    have hp : p ∈ wordCounts text := by rw [hc]; exact List.mem_cons_self _ _
    have hpos := wordCounts_values_pos text p hp
    rw [totalCount_eq_sum, hc, List.map_cons, List.sum_cons] at h
    omega

theorem similarityScore_nil_left {α : Type} [Zero α] [Add α] (words2 : List (Str × α)) :
    similarityScore [] words2 = 0 := rfl

/-- When the profile of a document keeps all its words, its frequencies add up
to 1, unless the document has no countable word and the profile is empty. -/
theorem documentProfile_full (sortFn : SortFn) (hS : StdSortContract sortFn) (n : Int) (content : Str)
    (hfull : ((wordCounts (clean content)).length : Int) ≤ n) :
    documentProfile (α := ℚ) sortFn n content = [] ∨
    ((documentProfile (α := ℚ) sortFn n content).map Prod.snd).sum = 1 := by
  obtain ⟨l, hperm, _, _, he⟩ := topWords_sublist_perm sortFn hS
    (normalizeFreqs (α := ℚ) (wordCounts (clean content))
      (totalCount (wordCounts (clean content)))) n
  have hlen : (normalizeFreqs (α := ℚ) (wordCounts (clean content))
      (totalCount (wordCounts (clean content)))).length = (wordCounts (clean content)).length := by
    rw [documentFreqs_eq, List.length_map]
  have hall : documentProfile (α := ℚ) sortFn n content = l := by
    show topWords sortFn _ n = l
    rw [he, hlen]
    apply List.take_of_length_le
    rw [hperm.length_eq, hlen]
    omega
  by_cases ht : totalCount (wordCounts (clean content)) = 0
  · left
    have hnil := wordCounts_eq_nil_of_totalCount_eq_zero _ ht
    rw [hall]
    have : l.length = 0 := by rw [hperm.length_eq, hlen, hnil]; rfl
    exact List.length_eq_zero.mp this
  · right
    rw [hall, (hperm.map Prod.snd).sum_eq, documentFreqs_sum, if_neg ht]

/-- C9 as amended: when the top-`K` profile of document A keeps all words of A
(A has at most `K` distinct counted words), the score of A's profile with itself
is at least its score with the profile of any document B. -/
theorem self_similarity_of_full_profile (sortFn : SortFn) (hS : StdSortContract sortFn) (n : Int) (contentA contentB : Str)
    (hfull : ((wordCounts (clean contentA)).length : Int) ≤ n) :
    similarityScore (documentProfile (α := ℚ) sortFn n contentA)
        (documentProfile (α := ℚ) sortFn n contentB) ≤
      similarityScore (documentProfile (α := ℚ) sortFn n contentA)
        (documentProfile (α := ℚ) sortFn n contentA) := by
  obtain ⟨a1, a2, a3⟩ := documentProfile_facts sortFn hS n contentA
  obtain ⟨b1, b2, b3⟩ := documentProfile_facts sortFn hS n contentB
  rcases documentProfile_full sortFn hS n contentA hfull with h | h
  · rw [h, similarityScore_nil_left, similarityScore_nil_left]
  · rw [similarityScore_self _ a1, h]
    have := (similarityScore_bounds _ _ a1 b1 a2 b2).2
    linarith

/-- C9 as amended, at `K = 100` and the documents `"the cat sat"` and
`"the cat ran"`. -/
theorem self_similarity_of_full_profile_witness :
    StdSortContract insertionSort ∧
    ((wordCounts (clean "the cat sat".toList)).length : Int) ≤ 100 ∧
    similarityScore (documentProfile (α := ℚ) insertionSort 100 "the cat sat".toList)
        (documentProfile (α := ℚ) insertionSort 100 "the cat ran".toList) ≤
      similarityScore (documentProfile (α := ℚ) insertionSort 100 "the cat sat".toList)
        (documentProfile (α := ℚ) insertionSort 100 "the cat sat".toList) :=
  ⟨insertionSort_contract, by decide,
    self_similarity_of_full_profile insertionSort insertionSort_contract 100 _ _ (by decide)⟩

/-- C9 fails when the profile is truncated: with `K = 1`, document A = `"x x y"`
has the profile `[(X, 2/3)]` and scores `4/3` with itself, but `5/3` with the
profile `[(X, 1)]` of document B = `"x"`. -/
theorem self_similarity_counterexample :
    documentProfile (α := ℚ) libstdcxxSort 1 "x x y".toList = [("X".toList, 2 / 3)] ∧
    documentProfile (α := ℚ) libstdcxxSort 1 "x".toList = [("X".toList, 1)] ∧
    similarityScore (documentProfile (α := ℚ) libstdcxxSort 1 "x x y".toList)
        (documentProfile (α := ℚ) libstdcxxSort 1 "x x y".toList) = 4 / 3 ∧
    similarityScore (documentProfile (α := ℚ) libstdcxxSort 1 "x x y".toList)
        (documentProfile (α := ℚ) libstdcxxSort 1 "x".toList) = 5 / 3 ∧
    ¬ (similarityScore (documentProfile (α := ℚ) libstdcxxSort 1 "x x y".toList)
        (documentProfile (α := ℚ) libstdcxxSort 1 "x x y".toList) ≥
      similarityScore (documentProfile (α := ℚ) libstdcxxSort 1 "x x y".toList)
        (documentProfile (α := ℚ) libstdcxxSort 1 "x".toList)) := by
  decide!

/-! ## Theorems: symmetry of the score -/

/-- C6 as amended: in exact arithmetic `similarityScore(A, B)` and
`similarityScore(B, A)` are equal for all profiles; the two calls add the same
terms in a different order. -/
theorem similarityScore_comm_exact (profileA profileB : List (Str × ℚ)) :
    similarityScore profileA profileB = similarityScore profileB profileA :=
  similarityScore_comm_of_exact profileA profileB

/-- C6 fails in `double` arithmetic: for the documents `"x y y z z z"` and
`"x x x y z z z z"` the pipeline gives the profiles `[Z 0.5, Y 1/3, X 1/6]`
and `[Z 0.5, X 0.375, Y 0.125]` (quotients rounded to binary64); their score is
`2` in one argument order and `2 - 2^-52` in the other. -/
theorem similarityScore_binary64_not_symmetric :
    similarityScore
        (documentProfile (α := Binary64) libstdcxxSort 100 "x y y z z z".toList)
        (documentProfile (α := Binary64) libstdcxxSort 100 "x x x y z z z z".toList) =
      ⟨2⟩ ∧
    similarityScore
        (documentProfile (α := Binary64) libstdcxxSort 100 "x x x y z z z z".toList)
        (documentProfile (α := Binary64) libstdcxxSort 100 "x y y z z z".toList) =
      ⟨2 - 1 / 2 ^ 52⟩ ∧
    similarityScore
        (documentProfile (α := Binary64) libstdcxxSort 100 "x y y z z z".toList)
        (documentProfile (α := Binary64) libstdcxxSort 100 "x x x y z z z z".toList) ≠
      similarityScore
        (documentProfile (α := Binary64) libstdcxxSort 100 "x x x y z z z z".toList)
        (documentProfile (α := Binary64) libstdcxxSort 100 "x y y z z z".toList) := by
  decide!

theorem eq_of_map_eq_of_injOn {α β : Type} (f : α → β) (u : List α)
    (hinj : ∀ x ∈ u, ∀ y ∈ u, f x = f y → x = y) (l l' : List α)
    (hl : ∀ x ∈ l, x ∈ u) (hl' : ∀ x ∈ l', x ∈ u) (h : l.map f = l'.map f) : l = l' := by
  induction l generalizing l' with
  | nil =>
    cases l' with
    | nil => rfl
    | cons b bs => simp at h
  | cons a as ih =>
    cases l' with
    | nil => simp at h
    | cons b bs =>
      simp only [List.map_cons, List.cons.injEq] at h
      have hab : a = b := hinj a (hl a (List.mem_cons_self _ _)) b
        (hl' b (List.mem_cons_self _ _)) h.1
      rw [hab, ih bs (fun x hx => hl x (List.mem_cons_of_mem _ hx))
        (fun x hx => hl' x (List.mem_cons_of_mem _ hx)) h.2]

/-- Two rearrangements of a map that are both sorted by descending frequency
coincide when no two entries of the map have the same frequency. -/
theorem sorted_perm_unique (freqs l l' : List (Str × ℚ)) (h : (freqs.map Prod.snd).Nodup)
    (hp : l.Perm freqs) (hp' : l'.Perm freqs)
    (hs : l.Pairwise (fun a b => b.2 ≤ a.2)) (hs' : l'.Pairwise (fun a b => b.2 ≤ a.2)) :
    l = l' := by
  have hm : l.map Prod.snd = l'.map Prod.snd := by
    apply List.eq_of_perm_of_sorted (r := fun x y : ℚ => y ≤ x)
    · exact (hp.map Prod.snd).trans (hp'.map Prod.snd).symm
    · exact List.pairwise_map.mpr hs
    · exact List.pairwise_map.mpr hs'
  exact eq_of_map_eq_of_injOn Prod.snd freqs
    (fun x hx y hy hxy => List.inj_on_of_nodup_map h hx hy hxy) l l'
    (fun x hx => hp.subset hx) (fun x hx => hp'.subset hx) hm

theorem map_take_sorted_perm_unique {β : Type} (key : β → ℚ) (u l l' : List β) (m : Nat)
    (hp : l.Perm u) (hp' : l'.Perm u)
    (hs : l.Pairwise (fun a b => key b ≤ key a)) (hs' : l'.Pairwise (fun a b => key b ≤ key a)) :
    (l.take m).map key = (l'.take m).map key := by
  have hm : l.map key = l'.map key := by
    apply List.eq_of_perm_of_sorted (r := fun x y : ℚ => y ≤ x)
    · exact (hp.map key).trans (hp'.map key).symm
    · exact List.pairwise_map.mpr hs
    · exact List.pairwise_map.mpr hs'
  rw [List.map_take, List.map_take, hm]

/-- C8 as amended: for every frequency mapping and every `k`, entries of
`topWords(freqs, k)` of different frequency appear with the higher frequency
first, and the sequence of frequencies of the result is the same for every
conforming `std::sort`; when moreover no two entries of `freqs` have the same
frequency, `topWords(freqs, k)` itself is the same list for every conforming
`std::sort`, i.e. a function of `freqs` and `k` alone. -/
theorem topWords_determined_of_distinct_freqs (sortFn sortFn' : SortFn) (hS : StdSortContract sortFn)
    (hS' : StdSortContract sortFn') (freqs : StdMap ℚ) (k : Int) :
    (topWords sortFn freqs k).Pairwise (fun a b => a.2 ≠ b.2 → b.2 < a.2) ∧
    (topWords sortFn freqs k).map Prod.snd = (topWords sortFn' freqs k).map Prod.snd ∧
    ((freqs.map Prod.snd).Nodup → topWords sortFn freqs k = topWords sortFn' freqs k) := by
  obtain ⟨l, hp, _, hs, he⟩ := topWords_sublist_perm sortFn hS freqs k
  obtain ⟨l', hp', _, hs', he'⟩ := topWords_sublist_perm sortFn' hS' freqs k
  refine ⟨?_, ?_, ?_⟩
  · exact (topWords_pairwise sortFn hS freqs k).imp (fun hab hne => lt_of_le_of_ne hab (Ne.symm hne))
  · rw [he, he']
    exact map_take_sorted_perm_unique Prod.snd freqs l l' _ hp hp' hs hs'
  · intro h
    rw [he, he', sorted_perm_unique freqs l l' h hp hp' hs hs']

/-- C8 as amended, at the map of the document `"cat dog"`, whose two entries
tie, and at a map with three different frequencies, for the two sorting
functions `insertionSort` and `reversingSort`. -/
theorem topWords_determined_of_distinct_freqs_witness :
    StdSortContract insertionSort ∧ StdSortContract reversingSort ∧
    ((topWords insertionSort
        ([("CAT".toList, 1 / 2), ("DOG".toList, 1 / 2)] : StdMap ℚ)
        1).Pairwise (fun a b => a.2 ≠ b.2 → b.2 < a.2) ∧
      (topWords insertionSort
        ([("CAT".toList, 1 / 2), ("DOG".toList, 1 / 2)] : StdMap ℚ) 1).map Prod.snd =
      (topWords reversingSort
        ([("CAT".toList, 1 / 2), ("DOG".toList, 1 / 2)] : StdMap ℚ) 1).map Prod.snd) ∧
    ((([("CAT".toList, 1 / 6), ("MAT".toList, 1 / 2), ("SAT".toList, 1 / 3)] :
        StdMap ℚ).map Prod.snd).Nodup) ∧
    (topWords insertionSort
        ([("CAT".toList, 1 / 6), ("MAT".toList, 1 / 2), ("SAT".toList, 1 / 3)] : StdMap ℚ)
        2).Pairwise (fun a b => a.2 ≠ b.2 → b.2 < a.2) ∧
    (topWords insertionSort
        ([("CAT".toList, 1 / 6), ("MAT".toList, 1 / 2), ("SAT".toList, 1 / 3)] : StdMap ℚ)
        2).map Prod.snd =
      (topWords reversingSort
        ([("CAT".toList, 1 / 6), ("MAT".toList, 1 / 2), ("SAT".toList, 1 / 3)] : StdMap ℚ)
        2).map Prod.snd ∧
    topWords insertionSort
        ([("CAT".toList, 1 / 6), ("MAT".toList, 1 / 2), ("SAT".toList, 1 / 3)] : StdMap ℚ) 2 =
      topWords reversingSort
        ([("CAT".toList, 1 / 6), ("MAT".toList, 1 / 2), ("SAT".toList, 1 / 3)] : StdMap ℚ) 2 :=
  ⟨insertionSort_contract, reversingSort_contract,
    ⟨(topWords_determined_of_distinct_freqs insertionSort reversingSort
        insertionSort_contract reversingSort_contract _ 1).1,
      (topWords_determined_of_distinct_freqs insertionSort reversingSort
        insertionSort_contract reversingSort_contract _ 1).2.1⟩,
    by decide!,
    (topWords_determined_of_distinct_freqs insertionSort reversingSort
      insertionSort_contract reversingSort_contract _ 2).1,
    (topWords_determined_of_distinct_freqs insertionSort reversingSort
      insertionSort_contract reversingSort_contract _ 2).2.1,
    (topWords_determined_of_distinct_freqs insertionSort reversingSort
      insertionSort_contract reversingSort_contract _ 2).2.2 (by decide!)⟩

/-- C8 fails.  With the `std::sort` of GNU libstdc++ the document
`"b c d e f g h i j k l m n o p q r"` (17 words, each of frequency 1/17) gets a
profile that starts `J, R, Q, P`, not in ascending token order, and cut off at
`k = 1` it keeps `J`, not the lexicographically smallest token `B`.  More
generally `reversingSort` meets the contract of `std::sort` as `insertionSort`
does, and for the document `"cat dog"` the one keeps `DOG` and the other `CAT`
at `k = 1`: the result is not a function of `freqs` and `k` alone. -/
theorem topWords_tie_counterexample :
    (documentProfile (α := ℚ) libstdcxxSort 100
        "b c d e f g h i j k l m n o p q r".toList).take 4 =
      [("J".toList, 1 / 17), ("R".toList, 1 / 17), ("Q".toList, 1 / 17),
        ("P".toList, 1 / 17)] ∧
    documentProfile (α := ℚ) libstdcxxSort 1 "b c d e f g h i j k l m n o p q r".toList =
      [("J".toList, 1 / 17)] ∧
    normalizeFreqs (α := ℚ) (wordCounts (clean "cat dog".toList))
        (totalCount (wordCounts (clean "cat dog".toList))) =
      [("CAT".toList, 1 / 2), ("DOG".toList, 1 / 2)] ∧
    topWords reversingSort
        ([("CAT".toList, 1 / 2), ("DOG".toList, 1 / 2)] : StdMap ℚ) 2 =
      [("DOG".toList, 1 / 2), ("CAT".toList, 1 / 2)] ∧
    topWords reversingSort
        ([("CAT".toList, 1 / 2), ("DOG".toList, 1 / 2)] : StdMap ℚ) 1 =
      [("DOG".toList, 1 / 2)] ∧
    topWords insertionSort
        ([("CAT".toList, 1 / 2), ("DOG".toList, 1 / 2)] : StdMap ℚ) 1 =
      [("CAT".toList, 1 / 2)] := by
  decide!

/-! ## Theorems: idempotence of `clean` -/

theorem isalnum_toNat_cases (c : Char) (h : isalnum c = true) :
    (48 ≤ c.toNat ∧ c.toNat ≤ 57) ∨ (65 ≤ c.toNat ∧ c.toNat ≤ 90) ∨
      (97 ≤ c.toNat ∧ c.toNat ≤ 122) := by
  simp only [isalnum, isupper, islower, isdigit, Bool.or_eq_true, Bool.and_eq_true,
    decide_eq_true_eq, char_le_iff] at h
  rcases h with (h | h) | h
  · right; left; exact h
  · right; right; exact h
  · left; exact h

theorem cleanChar_cleanChar (c : Char) : cleanChar (cleanChar c) = cleanChar c := by
  by_cases h : isalnum c = true
  · have hb := isalnum_toNat_cases c h
    have hc : c = Char.ofNat c.toNat := (Char.ofNat_toNat c).symm
    rw [hc]
    generalize c.toNat = n at hb
    rcases hb with ⟨h1, h2⟩ | ⟨h1, h2⟩ | ⟨h1, h2⟩ <;> interval_cases n <;> decide
  · have hsp : cleanChar c = ' ' := by
      unfold cleanChar
      rw [if_neg h]
    rw [hsp]
    decide

/-- C15: `clean(clean(x)) == clean(x)` for every string `x`. -/
theorem clean_idempotent (x : Str) : clean (clean x) = clean x := by
  rw [clean_eq_map, clean_eq_map, List.map_map]
  apply List.map_congr_left
  intro c _
  exact cleanChar_cleanChar c

/-! ## Theorems: profiles without a common token, empty profiles -/

theorem foldl_inner_of_no_match {α : Type} [Zero α] [Add α] (word1 : Str × α)
    (words2 : List (Str × α)) (sim : α) (h : ∀ b ∈ words2, word1.1 ≠ b.1) :
    words2.foldl
        (fun sim word2 => if word1.1 = word2.1 then sim + (word1.2 + word2.2) else sim) sim =
      sim := by
  induction words2 generalizing sim with
  | nil => rfl
  | cons b bs ih =>
    rw [List.foldl_cons, if_neg (h b (List.mem_cons_self _ _))]
    exact ih sim (fun x hx => h x (List.mem_cons_of_mem _ hx))

theorem foldl_outer_of_no_match {α : Type} [Zero α] [Add α] (words1 words2 : List (Str × α))
    (sim : α) (h : ∀ a ∈ words1, ∀ b ∈ words2, a.1 ≠ b.1) :
    words1.foldl
        (fun sim word1 =>
          words2.foldl
            (fun sim word2 => if word1.1 = word2.1 then sim + (word1.2 + word2.2) else sim)
            sim)
        sim = sim := by
  induction words1 generalizing sim with
  | nil => rfl
  | cons a as ih =>
    rw [List.foldl_cons, foldl_inner_of_no_match a words2 sim (h a (List.mem_cons_self _ _))]
    exact ih sim (fun x hx => h x (List.mem_cons_of_mem _ hx))

/-- In any arithmetic, profiles without a common token score the initial `0.0`:
no addition is executed. -/
theorem similarityScore_of_no_match {α : Type} [Zero α] [Add α] (words1 words2 : List (Str × α))
    (h : ∀ a ∈ words1, ∀ b ∈ words2, a.1 ≠ b.1) : similarityScore words1 words2 = 0 :=
  foldl_outer_of_no_match words1 words2 0 h

/-- C16: for all profiles A and B that share no token, `similarityScore(A, B)` is
exactly `0.0`; this holds in `double` arithmetic (`Binary64`) as in exact
arithmetic, since no addition is executed. -/
theorem similarityScore_disjoint (profileA profileB : List (Str × Binary64))
    (h : ∀ a ∈ profileA, ∀ b ∈ profileB, a.1 ≠ b.1) :
    similarityScore profileA profileB = 0 :=
  similarityScore_of_no_match profileA profileB h

/-- C16, at the profiles `[CAT 0.5, MAT 0.5]` and `[DOG 1.0]`. -/
theorem similarityScore_disjoint_witness :
    (∀ a ∈ ([("CAT".toList, ⟨1 / 2⟩), ("MAT".toList, ⟨1 / 2⟩)] : List (Str × Binary64)),
      ∀ b ∈ ([("DOG".toList, ⟨1⟩)] : List (Str × Binary64)), a.1 ≠ b.1) ∧
    similarityScore ([("CAT".toList, ⟨1 / 2⟩), ("MAT".toList, ⟨1 / 2⟩)] : List (Str × Binary64))
      [("DOG".toList, ⟨1⟩)] = 0 :=
  ⟨by decide, similarityScore_disjoint _ _ (by decide)⟩

theorem foldl_countWord_of_stop (ts : List Str) (m : StdMap Nat)
    (h : ∀ t ∈ ts, t ∈ stopWords) : ts.foldl countWord m = m := by
  induction ts generalizing m with
  | nil => rfl
  | cons t ts ih =>
    rw [List.foldl_cons]
    have ht : countWord m t = m := by
      unfold countWord
      rw [if_pos ((isStopWord_iff t stopWords).mpr (h t (List.mem_cons_self _ _)))]
    rw [ht]
    exact ih m (fun x hx => h x (List.mem_cons_of_mem _ hx))

/-- A text whose words are all stop words has an empty map of counts. -/
theorem wordCounts_clean_eq_nil (content : Str)
    (h : ∀ r ∈ alnumRuns content, r.map Char.toUpper ∈ stopWords) :
    wordCounts (clean content) = [] := by
  rw [wordCounts_eq_foldl, whitespaceTokens_clean]
  apply foldl_countWord_of_stop
  intro t ht
  obtain ⟨r, hr, rfl⟩ := List.mem_map.mp ht
  exact h r hr

/-- The comparison `a.second > b.second` on `Binary64` is a strict weak ordering. -/
theorem byFreqDesc_strictWeakOrdering_binary64 :
    StrictWeakOrdering (byFreqDesc : Str × Binary64 → Str × Binary64 → Bool) where
  irrefl := fun a => by
    simp only [byFreqDesc, decide_eq_false_iff_not]
    exact lt_irrefl a.2.val
  trans := fun a b c h1 h2 => by
    simp only [byFreqDesc, decide_eq_true_eq] at h1 h2 ⊢
    exact lt_trans (α := ℚ) h2 h1
  incomp_trans := fun a b c h1 h2 h3 h4 => by
    simp only [byFreqDesc, decide_eq_false_iff_not] at h1 h2 h3 h4 ⊢
    have e1 : ¬ b.2.val < a.2.val := h1
    have e2 : ¬ a.2.val < b.2.val := h2
    have e3 : ¬ c.2.val < b.2.val := h3
    have e4 : ¬ b.2.val < c.2.val := h4
    constructor
    · show ¬ c.2.val < a.2.val
      rw [not_lt] at *
      exact le_trans e1 e3
    · show ¬ a.2.val < c.2.val
      rw [not_lt] at *
      exact le_trans e4 e2

/-- A document without counted words gets the empty profile, in any arithmetic
in which `a.second > b.second` is a strict weak ordering. -/
theorem documentProfile_eq_nil {α : Type} [Zero α] [Div α] [NatCast α] [LT α]
    [DecidableRel (fun a b : α => a < b)] (sortFn : SortFn) (hS : StdSortContract sortFn)
    (hc : StrictWeakOrdering (byFreqDesc : Str × α → Str × α → Bool))
    (n : Int) (content : Str) (h : wordCounts (clean content) = []) :
    documentProfile (α := α) sortFn n content = [] := by
  unfold documentProfile
  simp only
  rw [h]
  have hn : normalizeFreqs (α := α) [] (totalCount []) = [] := rfl
  rw [hn]
  unfold topWords
  simp only
  have hp : (sortFn (byFreqDesc : Str × α → Str × α → Bool) []).Perm [] :=
    (hS (byFreqDesc : Str × α → Str × α → Bool) [] hc).1
  rw [List.perm_nil.mp hp]
  exact List.take_nil

theorem similarityScore_nil_right {α : Type} [Zero α] [Add α] (words1 : List (Str × α)) :
    similarityScore words1 [] = 0 :=
  similarityScore_of_no_match words1 [] (fun _ _ b hb => by cases hb)

/-- C11: a document whose text contains only stop words (and separators) gets
the empty top-K profile, in `double` and in exact arithmetic, and the score of
that profile with any other profile, in either argument order, is exactly
`0.0`. -/
theorem stopword_document_neutral (sortFn : SortFn) (hS : StdSortContract sortFn) (n : Int)
    (content : Str) (h : ∀ r ∈ alnumRuns content, r.map Char.toUpper ∈ stopWords) :
    documentProfile (α := Binary64) sortFn n content = [] ∧
    documentProfile (α := ℚ) sortFn n content = [] ∧
    (∀ other : List (Str × Binary64),
      similarityScore (documentProfile (α := Binary64) sortFn n content) other = 0 ∧
      similarityScore other (documentProfile (α := Binary64) sortFn n content) = 0) ∧
    (∀ other : List (Str × ℚ),
      similarityScore (documentProfile (α := ℚ) sortFn n content) other = 0 ∧
      similarityScore other (documentProfile (α := ℚ) sortFn n content) = 0) := by
  have hw := wordCounts_clean_eq_nil content h
  have h1 := documentProfile_eq_nil (α := Binary64) sortFn hS
    byFreqDesc_strictWeakOrdering_binary64 n content hw
  have h2 := documentProfile_eq_nil (α := ℚ) sortFn hS byFreqDesc_strictWeakOrdering n content hw
  refine ⟨h1, h2, fun other => ?_, fun other => ?_⟩
  · rw [h1]
    exact ⟨similarityScore_nil_left other, similarityScore_nil_right other⟩
  · rw [h2]
    exact ⟨similarityScore_nil_left other, similarityScore_nil_right other⟩

/-- C11, at the document `"The and, of the!"` and `K = 100`. -/
theorem stopword_document_neutral_witness :
    StdSortContract insertionSort ∧
    (∀ r ∈ alnumRuns "The and, of the!".toList, r.map Char.toUpper ∈ stopWords) ∧
    documentProfile (α := Binary64) insertionSort 100 "The and, of the!".toList = [] ∧
    documentProfile (α := ℚ) insertionSort 100 "The and, of the!".toList = [] ∧
    (∀ other : List (Str × Binary64),
      similarityScore (documentProfile (α := Binary64) insertionSort 100
        "The and, of the!".toList) other = 0 ∧
      similarityScore other (documentProfile (α := Binary64) insertionSort 100
        "The and, of the!".toList) = 0) ∧
    (∀ other : List (Str × ℚ),
      similarityScore (documentProfile (α := ℚ) insertionSort 100
        "The and, of the!".toList) other = 0 ∧
      similarityScore other (documentProfile (α := ℚ) insertionSort 100
        "The and, of the!".toList) = 0) :=
  ⟨insertionSort_contract, by decide,
    stopword_document_neutral insertionSort insertionSort_contract 100 _ (by decide)⟩

/-! ## Theorems: `topWords` as a selection, and `k ≤ 0` -/

/-- C18: `topWords(freqs, k)` is a selection of the `k` highest-frequency entries
of the map: for `k ≥ 0` it has exactly `min(k, size of freqs)` entries, every
entry of the result is an entry of `freqs`, no token appears twice, and every
entry of `freqs` left out has a frequency no larger than that of every entry
kept. -/
theorem topWords_selection (sortFn : SortFn) (hS : StdSortContract sortFn) (freqs : StdMap ℚ)
    (k : Int) (hfreqs : KeysAscending freqs) :
    (0 ≤ k → ((topWords sortFn freqs k).length : Int) = min k (freqs.length : Int)) ∧
    (topWords sortFn freqs k).length = min k.toNat freqs.length ∧
    (∀ p ∈ topWords sortFn freqs k, p ∈ freqs) ∧
    ((topWords sortFn freqs k).map Prod.fst).Nodup ∧
    (∀ p ∈ freqs, p ∉ topWords sortFn freqs k → ∀ q ∈ topWords sortFn freqs k, p.2 ≤ q.2) := by
  obtain ⟨l, hperm, hsub, hpw, he⟩ := topWords_sublist_perm sortFn hS freqs k
  refine ⟨topWords_length sortFn hS freqs k, ?_, fun p hp => hperm.subset (hsub.subset hp), ?_, ?_⟩
  · rw [he, List.length_take, hperm.length_eq]
    omega
  · have hl : (l.map Prod.fst).Nodup := by
      rw [(hperm.map Prod.fst).nodup_iff]
      exact nodup_keys_of_keysAscending freqs hfreqs
    exact (hsub.map Prod.fst).nodup hl
  · intro p hp hnot q hq
    have hpl : p ∈ l := hperm.symm.subset hp
    rw [he] at hnot hq
    rw [← List.take_append_drop (min k (freqs.length : Int)).toNat l] at hpl hpw
    rcases List.mem_append.mp hpl with h | h
    · exact absurd h hnot
    · exact (List.pairwise_append.mp hpw).2.2 q hq p h

/-- C18, at a map of three words and `k = 2`: two entries are kept, `MAT` and
`CAT`, and `SAT`, which is left out, has a frequency no larger than theirs. -/
theorem topWords_selection_witness :
    StdSortContract insertionSort ∧
    KeysAscending ([("CAT".toList, 1 / 4), ("MAT".toList, 1 / 2), ("SAT".toList, 1 / 4)] :
      StdMap ℚ) ∧
    topWords insertionSort
        ([("CAT".toList, 1 / 4), ("MAT".toList, 1 / 2), ("SAT".toList, 1 / 4)] : StdMap ℚ) 2 =
      [("MAT".toList, 1 / 2), ("CAT".toList, 1 / 4)] ∧
    ((0 : Int) ≤ 2 → ((topWords insertionSort
        ([("CAT".toList, 1 / 4), ("MAT".toList, 1 / 2), ("SAT".toList, 1 / 4)] : StdMap ℚ)
        2).length : Int) = min 2 ((3 : Nat) : Int)) ∧
    (topWords insertionSort
        ([("CAT".toList, 1 / 4), ("MAT".toList, 1 / 2), ("SAT".toList, 1 / 4)] : StdMap ℚ)
        2).length = min (2 : Int).toNat 3 ∧
    (∀ p ∈ topWords insertionSort
        ([("CAT".toList, 1 / 4), ("MAT".toList, 1 / 2), ("SAT".toList, 1 / 4)] : StdMap ℚ) 2,
      p ∈ ([("CAT".toList, 1 / 4), ("MAT".toList, 1 / 2), ("SAT".toList, 1 / 4)] : StdMap ℚ)) ∧
    ((topWords insertionSort
        ([("CAT".toList, 1 / 4), ("MAT".toList, 1 / 2), ("SAT".toList, 1 / 4)] : StdMap ℚ)
        2).map Prod.fst).Nodup ∧
    (∀ p ∈ ([("CAT".toList, 1 / 4), ("MAT".toList, 1 / 2), ("SAT".toList, 1 / 4)] : StdMap ℚ),
      p ∉ topWords insertionSort
        ([("CAT".toList, 1 / 4), ("MAT".toList, 1 / 2), ("SAT".toList, 1 / 4)] : StdMap ℚ) 2 →
      ∀ q ∈ topWords insertionSort
        ([("CAT".toList, 1 / 4), ("MAT".toList, 1 / 2), ("SAT".toList, 1 / 4)] : StdMap ℚ) 2,
        p.2 ≤ q.2) :=
  ⟨insertionSort_contract, by unfold KeysAscending; decide, by decide!,
    topWords_selection insertionSort insertionSort_contract _ 2 (by unfold KeysAscending; decide)⟩

/-- C17 as amended: for `k ≤ 0` the loop of `topWords` does not run and the
function returns the empty profile; no error is signalled. -/
theorem topWords_of_nonpos {α : Type} [LT α] [DecidableRel (fun a b : α => a < b)]
    (sortFn : SortFn) (freqs : StdMap α) (k : Int) (hk : k ≤ 0) :
    topWords sortFn freqs k = [] := by
  unfold topWords
  simp only
  have h0 : (min k ((sortFn (byFreqDesc : Str × α → Str × α → Bool) freqs).length : Int)).toNat
      = 0 := by
    have : min k ((sortFn (byFreqDesc : Str × α → Str × α → Bool) freqs).length : Int) ≤ 0 :=
      le_trans (min_le_left _ _) hk
    omega
  rw [h0]
  rfl

/-- C17 as amended, at `k = -3`. -/
theorem topWords_of_nonpos_witness :
    (-3 : Int) ≤ 0 ∧
    topWords libstdcxxSort
      ([("CAT".toList, 1 / 2), ("DOG".toList, 1 / 2)] : StdMap ℚ) (-3) = [] :=
  ⟨by decide, topWords_of_nonpos libstdcxxSort _ (-3) (by decide)⟩

/-- C17 fails: with `k = 0` and with `k = -1`, `topWords` returns a profile, the
empty one, and a comparison with it runs and scores `0.0`. -/
theorem topWords_nonpos_counterexample :
    topWords libstdcxxSort ([("CAT".toList, ⟨1 / 2⟩), ("DOG".toList, ⟨1 / 2⟩)] : StdMap Binary64)
      0 = [] ∧
    topWords libstdcxxSort ([("CAT".toList, ⟨1 / 2⟩), ("DOG".toList, ⟨1 / 2⟩)] : StdMap Binary64)
      (-1) = [] ∧
    similarityScore
      (topWords libstdcxxSort
        ([("CAT".toList, ⟨1 / 2⟩), ("DOG".toList, ⟨1 / 2⟩)] : StdMap Binary64) 0)
      (topWords libstdcxxSort
        ([("CAT".toList, ⟨1 / 2⟩), ("DOG".toList, ⟨1 / 2⟩)] : StdMap Binary64) 0) = 0 := by
  decide!

/-! ## Theorems: the pairs of `main` -/

theorem foldl_append_singleton {β γ : Type} (h : β → γ) (js : List β) (acc : List γ) :
    js.foldl (fun pairs j => pairs ++ [h j]) acc = acc ++ js.map h := by
  induction js generalizing acc with
  | nil => simp
  | cons j js ih => rw [List.foldl_cons, ih]; simp

theorem foldl_foldl_append {β γ δ : Type} (g : β → List γ) (h : β → γ → δ) (l : List β)
    (acc : List δ) :
    l.foldl (fun pairs i => (g i).foldl (fun pairs j => pairs ++ [h i j]) pairs) acc =
      acc ++ l.flatMap (fun i => (g i).map (h i)) := by
  induction l generalizing acc with
  | nil => simp
  | cons i l ih =>
    rw [List.foldl_cons, ih, foldl_append_singleton, List.flatMap_cons, List.append_assoc]

/-- The two loops that fill `simPairs` enumerate `i` and then `j` above `i`. -/
theorem simPairs_eq {α : Type} [Zero α] (matrix : List (List α)) :
    simPairs matrix =
      (List.range bookCountRequired).flatMap (fun i =>
        (List.range' (i + 1) (bookCountRequired - (i + 1))).map (fun j =>
          (i, j, (matrix.getD i []).getD j 0))) := by
  unfold simPairs
  rw [foldl_foldl_append (fun i => List.range' (i + 1) (bookCountRequired - (i + 1)))
    (fun i j => (i, j, (matrix.getD i []).getD j 0))]
  rfl

theorem simMatrix_getD {α : Type} [Zero α] [Add α] (profiles : List (List (Str × α)))
    (i j : Nat) (hi : i < bookCountRequired) (hj : j < bookCountRequired) :
    ((simMatrix profiles).getD i []).getD j 0 =
      if i ≠ j then similarityScore (profiles.getD i []) (profiles.getD j []) else 0 := by
  unfold simMatrix
  simp only [List.getD_eq_getElem?_getD, List.getElem?_map, List.getElem?_range hi,
    List.getElem?_range hj, Option.map_some', Option.getD_some]

theorem flatMap_congr_mem {β γ : Type} (l : List β) (f g : β → List γ)
    (h : ∀ x ∈ l, f x = g x) : l.flatMap f = l.flatMap g := by
  induction l with
  | nil => rfl
  | cons x xs ih =>
    rw [List.flatMap_cons, List.flatMap_cons, h x (List.mem_cons_self _ _),
      ih (fun y hy => h y (List.mem_cons_of_mem _ hy))]

/-- The pairs `main` collects, with the scores read back from the matrix. -/
theorem simPairs_simMatrix {α : Type} [Zero α] [Add α] (profiles : List (List (Str × α))) :
    simPairs (simMatrix profiles) =
      (List.range bookCountRequired).flatMap (fun i =>
        (List.range' (i + 1) (bookCountRequired - (i + 1))).map (fun j =>
          (i, j, similarityScore (profiles.getD i []) (profiles.getD j [])))) := by
  rw [simPairs_eq]
  apply flatMap_congr_mem
  intro i hi
  apply List.map_congr_left
  intro j hj
  rw [List.mem_range] at hi
  rw [List.mem_range'_1] at hj
  have hj2 : j < bookCountRequired := by omega
  rw [simMatrix_getD profiles i j hi hj2, if_pos (by omega)]

theorem map_fst_flatMap_pairs {α : Type} (n : Nat) (s : Nat → Nat → α) :
    ((List.range n).flatMap (fun i =>
        (List.range' (i + 1) (n - (i + 1))).map (fun j => (i, j, s i j)))).map
      (fun p => (p.1, p.2.1)) =
      (List.range n).flatMap (fun i =>
        (List.range' (i + 1) (n - (i + 1))).map (fun j => (i, j))) := by
  rw [List.map_flatMap]
  apply flatMap_congr_mem
  intro i _
  rw [List.map_map]
  rfl

theorem mem_indexPairs (n i j : Nat) :
    (i, j) ∈ (List.range n).flatMap (fun i =>
        (List.range' (i + 1) (n - (i + 1))).map (fun j => (i, j))) ↔ i < j ∧ j < n := by
  simp only [List.mem_flatMap, List.mem_range, List.mem_map, List.mem_range'_1, Prod.mk.injEq]
  constructor
  · rintro ⟨a, ha, b, hb, rfl, rfl⟩
    omega
  · rintro ⟨h1, h2⟩
    exact ⟨i, by omega, j, by omega, rfl, rfl⟩

theorem nodup_indexPairs (n : Nat) :
    ((List.range n).flatMap (fun i =>
        (List.range' (i + 1) (n - (i + 1))).map (fun j => (i, j)))).Nodup := by
  rw [List.nodup_flatMap]
  constructor
  · intro i _
    apply List.Nodup.map
    · intro a b hab
      simpa using hab
    · exact List.nodup_range' _ _
  · refine (List.nodup_range n).imp ?_
    intro a b hab
    simp only [Function.onFun]
    rw [List.disjoint_left]
    intro p hp hq
    obtain ⟨x, _, rfl⟩ := List.mem_map.mp hp
    obtain ⟨y, _, hy⟩ := List.mem_map.mp hq
    simp only [Prod.mk.injEq] at hy
    exact hab hy.1.symm

theorem length_indexPairs_64 :
    ((List.range 64).flatMap (fun i =>
        (List.range' (i + 1) (64 - (i + 1))).map (fun j => (i, j)))).length = 2016 := by
  rw [List.flatMap, List.length_flatten, List.map_map]
  have e : (List.length ∘ fun i : Nat =>
      (List.range' (i + 1) (64 - (i + 1))).map (fun j => (i, j))) =
      fun i : Nat => 64 - (i + 1) := by
    funext i
    simp
  rw [e]
  decide

theorem getD_map_of_lt {β γ : Type} (f : β → γ) (l : List β) (i : Nat) (d : β) (e : γ)
    (h : i < l.length) : (l.map f).getD i e = f (l.getD i d) := by
  simp only [List.getD_eq_getElem?_getD, List.getElem?_map, List.getElem?_eq_getElem h,
    Option.map_some', Option.getD_some]

/-- C19: for a corpus of 64 documents every profile is computed once, and
`simPairs` holds every unordered pair exactly once: 2016 entries, one
`(i, j, s)` for each `0 ≤ i < j < 64` and none with `i ≥ j`, with `s` the score
of the profiles of documents `i` and `j`. -/
theorem simPairs_every_pair_once {α : Type} [Zero α] [Add α] [Div α] [NatCast α] [LT α]
    [DecidableRel (fun a b : α => a < b)] (sortFn : SortFn) (contents : List Str)
    (hlen : contents.length = 64) :
    allWords (α := α) sortFn contents =
      contents.map (fun content => documentProfile sortFn 100 content) ∧
    (simPairs (simMatrix (allWords (α := α) sortFn contents))).length = 2016 ∧
    ((simPairs (simMatrix (allWords (α := α) sortFn contents))).map
      (fun p => (p.1, p.2.1))).Nodup ∧
    (∀ i j : Nat,
      (i, j) ∈ (simPairs (simMatrix (allWords (α := α) sortFn contents))).map
        (fun p => (p.1, p.2.1)) ↔ i < j ∧ j < 64) ∧
    (∀ p ∈ simPairs (simMatrix (allWords (α := α) sortFn contents)),
      p.2.2 = similarityScore (documentProfile (α := α) sortFn 100 (contents.getD p.1 []))
        (documentProfile (α := α) sortFn 100 (contents.getD p.2.1 []))) := by
  have hidx := map_fst_flatMap_pairs (α := α) 64 (fun i j =>
    similarityScore ((allWords (α := α) sortFn contents).getD i [])
      ((allWords (α := α) sortFn contents).getD j []))
  have hsp := simPairs_simMatrix (allWords (α := α) sortFn contents)
  have h64 : bookCountRequired = 64 := rfl
  rw [h64] at hsp
  refine ⟨rfl, ?_, ?_, ?_, ?_⟩
  · have := congrArg List.length hidx
    rw [List.length_map, length_indexPairs_64] at this
    rw [hsp]
    exact this
  · rw [hsp, hidx]
    exact nodup_indexPairs 64
  · intro i j
    rw [hsp, hidx]
    exact mem_indexPairs 64 i j
  · intro p hp
    rw [hsp] at hp
    simp only [List.mem_flatMap, List.mem_range, List.mem_map, List.mem_range'_1] at hp
    obtain ⟨i, hi, j, hj, rfl⟩ := hp
    have hi2 : i < contents.length := by omega
    have hj2 : j < contents.length := by omega
    show similarityScore ((allWords (α := α) sortFn contents).getD i [])
        ((allWords (α := α) sortFn contents).getD j []) = _
    unfold allWords
    rw [getD_map_of_lt _ contents i [] [] hi2, getD_map_of_lt _ contents j [] [] hj2]
    rfl

/-- C19, at the corpus of 64 copies of `"cat"`, in `double` arithmetic and with
the `std::sort` of GNU libstdc++. -/
theorem simPairs_every_pair_once_witness :
    sampleCorpus.length = 64 ∧
    allWords (α := Binary64) libstdcxxSort sampleCorpus =
      sampleCorpus.map (fun content => documentProfile libstdcxxSort 100 content) ∧
    (simPairs (simMatrix (allWords (α := Binary64) libstdcxxSort sampleCorpus))).length = 2016 ∧
    ((simPairs (simMatrix (allWords (α := Binary64) libstdcxxSort sampleCorpus))).map
      (fun p => (p.1, p.2.1))).Nodup ∧
    (∀ i j : Nat,
      (i, j) ∈ (simPairs (simMatrix (allWords (α := Binary64) libstdcxxSort sampleCorpus))).map
        (fun p => (p.1, p.2.1)) ↔ i < j ∧ j < 64) ∧
    (∀ p ∈ simPairs (simMatrix (allWords (α := Binary64) libstdcxxSort sampleCorpus)),
      p.2.2 =
        similarityScore
          (documentProfile (α := Binary64) libstdcxxSort 100 (sampleCorpus.getD p.1 []))
          (documentProfile (α := Binary64) libstdcxxSort 100 (sampleCorpus.getD p.2.1 []))) :=
  ⟨List.length_replicate _ _,
    simPairs_every_pair_once libstdcxxSort sampleCorpus (List.length_replicate _ _)⟩

/-! ## Theorems: the ranking of `main` -/

/-- The comparison `std::get<2>(a) > std::get<2>(b)` is a strict weak ordering. -/
theorem bySimDesc_strictWeakOrdering {α : Type} [LinearOrder α] :
    StrictWeakOrdering (bySimDesc : Nat × Nat × α → Nat × Nat × α → Bool) where
  irrefl := fun a => by simp [bySimDesc]
  trans := fun a b c h1 h2 => by
    simp only [bySimDesc, decide_eq_true_eq] at h1 h2 ⊢
    exact lt_trans h2 h1
  incomp_trans := fun a b c h1 h2 h3 h4 => by
    simp only [bySimDesc, decide_eq_false_iff_not, not_lt] at h1 h2 h3 h4 ⊢
    exact ⟨le_trans h1 h3, le_trans h4 h2⟩

theorem rankedPairs_perm_sorted (sortFn : SortFn) (hS : StdSortContract sortFn)
    (pairs : List (Nat × Nat × ℚ)) :
    (rankedPairs sortFn pairs).Perm pairs ∧
    (rankedPairs sortFn pairs).Pairwise (fun a b => b.2.2 ≤ a.2.2) := by
  have h := hS (bySimDesc : Nat × Nat × ℚ → Nat × Nat × ℚ → Bool) pairs
    bySimDesc_strictWeakOrdering
  refine ⟨h.1, h.2.imp ?_⟩
  intro a b hab
  simpa [bySimDesc] using hab

theorem reportedPairs_getElem? {α : Type} [Zero α] (ranked : List (Nat × Nat × α))
    (bookNames : List Str) (i : Nat) :
    (reportedPairs ranked bookNames)[i]? =
      ((ranked.take 10)[i]?).map (fun p =>
        (i + 1, bookNames.getD p.1 [], bookNames.getD p.2.1 [], p.2.2)) := by
  unfold reportedPairs
  rw [List.getElem?_map]
  by_cases h : i < min 10 ranked.length
  · have h1 : i < 10 := lt_of_lt_of_le h (min_le_left _ _)
    have h2 : i < ranked.length := lt_of_lt_of_le h (min_le_right _ _)
    rw [List.getElem?_range h, List.getElem?_take_of_lt h1, List.getElem?_eq_getElem h2]
    simp only [Option.map_some', List.getD_eq_getElem?_getD, List.getElem?_eq_getElem h2,
      Option.getD_some]
  · have h3 : (List.range (min 10 ranked.length))[i]? = none := by
      rw [List.getElem?_eq_none_iff, List.length_range]
      omega
    have h4 : (ranked.take 10)[i]? = none := by
      rw [List.getElem?_eq_none_iff, List.length_take]
      omega
    rw [h3, h4]
    rfl

/-- C12: the list of pairs after the sort in `main` is a rearrangement of the
list before it and is non-increasing in score, and the pairs `main` reports, with
ranks 1 to `min(10, number of pairs)`, are the first entries of the sorted
list. -/
theorem ranking_order_and_report (sortFn : SortFn) (hS : StdSortContract sortFn)
    (pairs : List (Nat × Nat × ℚ)) (bookNames : List Str) :
    (rankedPairs sortFn pairs).Perm pairs ∧
    (rankedPairs sortFn pairs).Sorted (fun a b => a.2.2 ≥ b.2.2) ∧
    (rankedPairs sortFn pairs).Chain' (fun a b => a.2.2 ≥ b.2.2) ∧
    (reportedPairs (rankedPairs sortFn pairs) bookNames).length = min 10 pairs.length ∧
    (∀ i : Nat, (reportedPairs (rankedPairs sortFn pairs) bookNames)[i]? =
      (((rankedPairs sortFn pairs).take 10)[i]?).map (fun p =>
        (i + 1, bookNames.getD p.1 [], bookNames.getD p.2.1 [], p.2.2))) := by
  obtain ⟨h1, h2⟩ := rankedPairs_perm_sorted sortFn hS pairs
  refine ⟨h1, h2, List.Pairwise.chain' h2, ?_, fun i => reportedPairs_getElem? _ _ i⟩
  unfold reportedPairs
  rw [List.length_map, List.length_range, h1.length_eq]

/-- C12, at three pairs and three book names. -/
theorem ranking_order_and_report_witness :
    StdSortContract insertionSort ∧
    (rankedPairs insertionSort
      ([(0, 1, 1 / 2), (0, 2, 1), (1, 2, 1 / 2)] : List (Nat × Nat × ℚ))).Perm
      [(0, 1, 1 / 2), (0, 2, 1), (1, 2, 1 / 2)] ∧
    (rankedPairs insertionSort
      ([(0, 1, 1 / 2), (0, 2, 1), (1, 2, 1 / 2)] : List (Nat × Nat × ℚ))).Sorted
      (fun a b => a.2.2 ≥ b.2.2) ∧
    (rankedPairs insertionSort
      ([(0, 1, 1 / 2), (0, 2, 1), (1, 2, 1 / 2)] : List (Nat × Nat × ℚ))).Chain'
      (fun a b => a.2.2 ≥ b.2.2) ∧
    (reportedPairs (rankedPairs insertionSort
      ([(0, 1, 1 / 2), (0, 2, 1), (1, 2, 1 / 2)] : List (Nat × Nat × ℚ)))
      ["a.txt".toList, "b.txt".toList, "c.txt".toList]).length =
        min 10 ([(0, 1, 1 / 2), (0, 2, 1), (1, 2, 1 / 2)] : List (Nat × Nat × ℚ)).length ∧
    (∀ i : Nat, (reportedPairs (rankedPairs insertionSort
      ([(0, 1, 1 / 2), (0, 2, 1), (1, 2, 1 / 2)] : List (Nat × Nat × ℚ)))
      ["a.txt".toList, "b.txt".toList, "c.txt".toList])[i]? =
      (((rankedPairs insertionSort
        ([(0, 1, 1 / 2), (0, 2, 1), (1, 2, 1 / 2)] : List (Nat × Nat × ℚ))).take 10)[i]?).map
        (fun p => (i + 1, (["a.txt".toList, "b.txt".toList, "c.txt".toList] : List Str).getD p.1 [],
          (["a.txt".toList, "b.txt".toList, "c.txt".toList] : List Str).getD p.2.1 [], p.2.2))) :=
  ⟨insertionSort_contract, ranking_order_and_report insertionSort insertionSort_contract _ _⟩

/-! ## Theorems: ties in the ranking -/

/-- Two rearrangements of a list that are both sorted by descending key
coincide when no two entries of the list have the same key. -/
theorem sorted_perm_unique_key {β : Type} (key : β → ℚ) (u l l' : List β)
    (h : (u.map key).Nodup) (hp : l.Perm u) (hp' : l'.Perm u)
    (hs : l.Pairwise (fun a b => key b ≤ key a)) (hs' : l'.Pairwise (fun a b => key b ≤ key a)) :
    l = l' := by
  have hm : l.map key = l'.map key := by
    apply List.eq_of_perm_of_sorted (r := fun x y : ℚ => y ≤ x)
    · exact (hp.map key).trans (hp'.map key).symm
    · exact List.pairwise_map.mpr hs
    · exact List.pairwise_map.mpr hs'
  exact eq_of_map_eq_of_injOn key u
    (fun x hx y hy hxy => List.inj_on_of_nodup_map h hx hy hxy) l l'
    (fun x hx => hp.subset hx) (fun x hx => hp'.subset hx) hm

/-- C13 as amended: for every list of pairs, two pairs with different scores
are ranked with the higher score first, and the sequence of scores down the
ranking is the same for every conforming `std::sort`; when moreover no two
pairs have the same score, the ranking itself is the same list for every
conforming `std::sort`. -/
theorem ranking_determined_of_distinct_scores (sortFn sortFn' : SortFn)
    (hS : StdSortContract sortFn) (hS' : StdSortContract sortFn')
    (pairs : List (Nat × Nat × ℚ)) :
    (rankedPairs sortFn pairs).Pairwise (fun a b => a.2.2 ≠ b.2.2 → b.2.2 < a.2.2) ∧
    (rankedPairs sortFn pairs).map (fun p => p.2.2) =
      (rankedPairs sortFn' pairs).map (fun p => p.2.2) ∧
    ((pairs.map (fun p => p.2.2)).Nodup → rankedPairs sortFn pairs = rankedPairs sortFn' pairs) := by
  obtain ⟨h1, h2⟩ := rankedPairs_perm_sorted sortFn hS pairs
  obtain ⟨h1', h2'⟩ := rankedPairs_perm_sorted sortFn' hS' pairs
  refine ⟨?_, ?_, ?_⟩
  · exact h2.imp (fun hab hne => lt_of_le_of_ne hab (Ne.symm hne))
  · apply List.eq_of_perm_of_sorted (r := fun x y : ℚ => y ≤ x)
    · exact (h1.map _).trans (h1'.map _).symm
    · exact List.pairwise_map.mpr h2
    · exact List.pairwise_map.mpr h2'
  · intro h
    exact sorted_perm_unique_key (fun p => p.2.2) pairs _ _ h h1 h1' h2 h2'

/-- C13 as amended, at three pairs of which two tie, and at three pairs with
three different scores, for the two sorting functions `insertionSort` and
`reversingSort`. -/
theorem ranking_determined_of_distinct_scores_witness :
    StdSortContract insertionSort ∧ StdSortContract reversingSort ∧
    ((rankedPairs insertionSort
      ([(0, 1, 1 / 2), (0, 2, 1), (1, 2, 1 / 2)] : List (Nat × Nat × ℚ))).Pairwise
      (fun a b => a.2.2 ≠ b.2.2 → b.2.2 < a.2.2) ∧
      (rankedPairs insertionSort
        ([(0, 1, 1 / 2), (0, 2, 1), (1, 2, 1 / 2)] : List (Nat × Nat × ℚ))).map
        (fun p => p.2.2) =
      (rankedPairs reversingSort
        ([(0, 1, 1 / 2), (0, 2, 1), (1, 2, 1 / 2)] : List (Nat × Nat × ℚ))).map
        (fun p => p.2.2)) ∧
    ((([(0, 1, 1 / 2), (0, 2, 1), (1, 2, 1 / 4)] : List (Nat × Nat × ℚ)).map
      (fun p => p.2.2)).Nodup) ∧
    (rankedPairs insertionSort
      ([(0, 1, 1 / 2), (0, 2, 1), (1, 2, 1 / 4)] : List (Nat × Nat × ℚ))).Pairwise
      (fun a b => a.2.2 ≠ b.2.2 → b.2.2 < a.2.2) ∧
    (rankedPairs insertionSort
      ([(0, 1, 1 / 2), (0, 2, 1), (1, 2, 1 / 4)] : List (Nat × Nat × ℚ))).map
      (fun p => p.2.2) =
      (rankedPairs reversingSort
        ([(0, 1, 1 / 2), (0, 2, 1), (1, 2, 1 / 4)] : List (Nat × Nat × ℚ))).map
        (fun p => p.2.2) ∧
    rankedPairs insertionSort
      ([(0, 1, 1 / 2), (0, 2, 1), (1, 2, 1 / 4)] : List (Nat × Nat × ℚ)) =
      rankedPairs reversingSort [(0, 1, 1 / 2), (0, 2, 1), (1, 2, 1 / 4)] :=
  ⟨insertionSort_contract, reversingSort_contract,
    ⟨(ranking_determined_of_distinct_scores insertionSort reversingSort insertionSort_contract
        reversingSort_contract _).1,
      (ranking_determined_of_distinct_scores insertionSort reversingSort insertionSort_contract
        reversingSort_contract _).2.1⟩,
    by decide!,
    (ranking_determined_of_distinct_scores insertionSort reversingSort insertionSort_contract
      reversingSort_contract _).1,
    (ranking_determined_of_distinct_scores insertionSort reversingSort insertionSort_contract
      reversingSort_contract _).2.1,
    (ranking_determined_of_distinct_scores insertionSort reversingSort insertionSort_contract
      reversingSort_contract _).2.2 (by decide!)⟩

theorem insertSorted_of_all_equiv {β : Type} (comp : β → β → Bool) (x : β) (acc : List β)
    (h : ∀ y ∈ acc, comp x y = false) : insertSorted comp x acc = acc ++ [x] := by
  induction acc with
  | nil => rfl
  | cons y ys ih =>
    unfold insertSorted
    rw [h y (List.mem_cons_self _ _)]
    simp only [Bool.false_eq_true, if_false, List.cons_append, List.cons.injEq, true_and]
    exact ih (fun z hz => h z (List.mem_cons_of_mem _ hz))

theorem foldl_insertSorted_of_all_equiv {β : Type} (comp : β → β → Bool) (l acc : List β)
    (h : ∀ a ∈ acc ++ l, ∀ b ∈ acc ++ l, comp a b = false) :
    l.foldl (fun acc x => insertSorted comp x acc) acc = acc ++ l := by
  induction l generalizing acc with
  | nil => simp
  | cons x xs ih =>
    rw [List.foldl_cons, insertSorted_of_all_equiv comp x acc
      (fun y hy => h x (by simp) y (List.mem_append_left _ hy))]
    rw [ih (acc ++ [x]) (by simpa using h)]
    simp

/-- On a range of pairwise equivalent elements insertion sort changes nothing. -/
theorem insertionSort_of_all_equiv {β : Type} (comp : β → β → Bool) (l : List β)
    (h : ∀ a ∈ l, ∀ b ∈ l, comp a b = false) : insertionSort comp l = l := by
  unfold insertionSort
  rw [foldl_insertSorted_of_all_equiv comp l [] (by simpa using h)]
  rfl

/-- The pairs `main` collects for `sampleCorpus`: every score is 2. -/
theorem simPairs_sampleCorpus (sortFn : SortFn)
    (hp : documentProfile (α := ℚ) sortFn 100 "cat".toList = [("CAT".toList, 1)]) :
    simPairs (simMatrix (allWords (α := ℚ) sortFn sampleCorpus)) =
      (List.range 64).flatMap (fun i =>
        (List.range' (i + 1) (64 - (i + 1))).map (fun j => (i, j, (2 : ℚ)))) := by
  rw [simPairs_simMatrix]
  have h64 : bookCountRequired = 64 := rfl
  rw [h64]
  apply flatMap_congr_mem
  intro i hi
  apply List.map_congr_left
  intro j hj
  rw [List.mem_range] at hi
  rw [List.mem_range'_1] at hj
  have hi2 : i < sampleCorpus.length := by
    rw [sampleCorpus, List.length_replicate]; exact hi
  have hj2 : j < sampleCorpus.length := by
    rw [sampleCorpus, List.length_replicate]; omega
  have hg : ∀ k, k < sampleCorpus.length → sampleCorpus.getD k [] = "cat".toList := by
    intro k hk
    rw [List.getD_eq_getElem _ _ hk]
    exact List.eq_of_mem_replicate (List.getElem_mem hk)
  unfold allWords
  rw [getD_map_of_lt _ sampleCorpus i [] [] hi2, getD_map_of_lt _ sampleCorpus j [] [] hj2,
    hg i hi2, hg j hj2]
  have hd : defaultTopN = 100 := rfl
  rw [hd, hp]
  congr 2
  decide!

theorem bySimDesc_eq_false_of_const (c : ℚ) (l : List (Nat × Nat × ℚ))
    (h : ∀ p ∈ l, p.2.2 = c) : ∀ a ∈ l, ∀ b ∈ l, bySimDesc a b = false := by
  intro a ha b hb
  simp only [bySimDesc, decide_eq_false_iff_not, h a ha, h b hb]
  exact lt_irrefl c


/-! ## Theorems: GNU libstdc++ `std::sort` on pairwise equivalent elements -/

theorem scanUp_of_all_equiv {α : Type} (comp : α → α → Bool) (l : List α) (pivot : α)
    (h : ∀ x ∈ l, comp x pivot = false) (fuel first : Nat) :
    scanUp comp l pivot fuel first = first := by
  cases fuel with
  | zero => rfl
  | succ fuel =>
    unfold scanUp
    cases hx : l[first]? with
    | none => rfl
    | some x =>
      simp only
      rw [h x (List.getElem?_mem hx)]
      simp

theorem scanDown_of_all_equiv {α : Type} (comp : α → α → Bool) (l : List α) (pivot : α)
    (h : ∀ x ∈ l, comp pivot x = false) (fuel last : Nat) :
    scanDown comp l pivot fuel last = last := by
  cases fuel with
  | zero => rfl
  | succ fuel =>
    unfold scanDown
    cases hx : l[last]? with
    | none => rfl
    | some x =>
      simp only
      rw [h x (List.getElem?_mem hx)]
      simp

theorem iterSwap_length {α : Type} (l : List α) (i j : Nat) :
    (iterSwap l i j).length = l.length := by
  unfold iterSwap
  split <;> simp

theorem mem_of_mem_iterSwap {α : Type} (l : List α) (i j : Nat) (x : α)
    (hx : x ∈ iterSwap l i j) : x ∈ l := by
  unfold iterSwap at hx
  split at hx
  · rename_i a b ha hb
    rcases List.mem_or_eq_of_mem_set hx with h1 | h1
    · rcases List.mem_or_eq_of_mem_set h1 with h2 | h2
      · exact h2
      · rw [h2]; exact List.getElem?_mem hb
    · rw [h1]; exact List.getElem?_mem ha
  · exact hx

/-- A swap inside the middle part of a range is a swap of the middle part. -/
theorem iterSwap_append {α : Type} (p seg s : List α) (i j : Nat) (hi : i < seg.length)
    (hj : j < seg.length) :
    iterSwap (p ++ seg ++ s) (p.length + i) (p.length + j) = p ++ iterSwap seg i j ++ s := by
  unfold iterSwap
  have h1 : (p ++ seg ++ s)[p.length + i]? = seg[i]? := by
    rw [List.append_assoc, List.getElem?_append_right (by omega)]
    rw [show p.length + i - p.length = i by omega, List.getElem?_append_left hi]
  have h2 : (p ++ seg ++ s)[p.length + j]? = seg[j]? := by
    rw [List.append_assoc, List.getElem?_append_right (by omega)]
    rw [show p.length + j - p.length = j by omega, List.getElem?_append_left hj]
  rw [h1, h2, List.getElem?_eq_getElem hi, List.getElem?_eq_getElem hj]
  simp only
  rw [List.append_assoc, List.set_append_right _ _ (by omega),
    show p.length + i - p.length = i by omega, List.set_append_left _ _ hi,
    List.set_append_right _ _ (by omega),
    show p.length + j - p.length = j by omega,
    List.set_append_left _ _ (by rw [List.length_set]; exact hj), List.append_assoc]

/-- Swapping the two ends of a range. -/
theorem iterSwap_ends {α : Type} (x y : α) (mid : List α) :
    iterSwap (x :: (mid ++ [y])) 0 (mid.length + 1) = y :: (mid ++ [x]) := by
  unfold iterSwap
  have h2 : (x :: (mid ++ [y]))[mid.length + 1]? = some y := by
    rw [List.getElem?_cons_succ, List.getElem?_append_right (le_refl _)]
    simp
  rw [h2]
  simp only [List.getElem?_cons_zero, List.set_cons_zero, List.set_cons_succ]
  rw [List.set_append_right _ _ (le_refl _)]
  simp

/-- On pairwise equivalent elements the swaps of `__unguarded_partition` reverse
the range, and the cut is its middle. -/
theorem unguardedPartition_of_all_equiv {α : Type} (comp : α → α → Bool) (pivot : Nat) :
    ∀ (fuel : Nat) (seg p s : List α), seg.length / 2 ≤ fuel → pivot < p.length →
      (∀ a ∈ p ++ seg ++ s, ∀ b ∈ p ++ seg ++ s, comp a b = false) →
      unguardedPartition comp pivot fuel (p ++ seg ++ s) p.length (p.length + seg.length) =
        (p ++ seg.reverse ++ s, p.length + seg.length / 2) := by
  intro fuel
  induction fuel with
  | zero =>
    intro seg p s hf _ _
    have hlen : seg.length ≤ 1 := by omega
    have hrev : seg.reverse = seg := by
      match seg, hlen with
      | [], _ => rfl
      | [_], _ => rfl
    unfold unguardedPartition
    rw [hrev]
    simp only [Prod.mk.injEq, true_and]
    omega
  | succ fuel ih =>
    intro seg p s hf hpiv hc
    unfold unguardedPartition
    have hpl : pivot < (p ++ seg ++ s).length := by
      simp only [List.length_append]; omega
    rw [List.getElem?_eq_getElem hpl]
    simp only
    have hmem : (p ++ seg ++ s)[pivot] ∈ p ++ seg ++ s := List.getElem_mem hpl
    rw [scanUp_of_all_equiv comp _ _ (fun x hx => hc x hx _ hmem),
      scanDown_of_all_equiv comp _ _ (fun x hx => hc _ hmem x hx)]
    cases seg with
    | nil =>
      rw [if_neg (by simp)]
      simp
    | cons x t =>
      rcases List.eq_nil_or_concat t with rfl | ⟨mid, y, ht⟩
      on_goal 2 => rw [List.concat_eq_append] at ht; subst ht
      · rw [if_neg (by simp)]
        simp
      · rw [if_pos (by simp only [List.length_cons, List.length_append, List.length_singleton, List.length_nil]; omega)]
        have hidx : p.length + (x :: (mid ++ [y])).length - 1 = p.length + (mid.length + 1) := by
          simp only [List.length_cons, List.length_append, List.length_singleton, List.length_nil]; omega
        rw [hidx]
        have hsw : iterSwap (p ++ x :: (mid ++ [y]) ++ s) p.length (p.length + (mid.length + 1)) =
            (p ++ [y]) ++ mid ++ (x :: s) := by
          have h0 := iterSwap_append p (x :: (mid ++ [y])) s 0 (mid.length + 1)
            (by simp) (by simp)
          rw [Nat.add_zero] at h0
          rw [h0, iterSwap_ends]
          simp
        rw [hsw]
        have hlen1 : p.length + 1 = (p ++ [y]).length := by simp
        have hlen2 : p.length + (mid.length + 1) = (p ++ [y]).length + mid.length := by
          simp only [List.length_append, List.length_singleton, List.length_nil]; omega
        rw [hlen1, hlen2]
        rw [ih mid (p ++ [y]) (x :: s)
          (by simp only [List.length_cons, List.length_append, List.length_singleton, List.length_nil] at hf; omega)
          (by simp only [List.length_append, List.length_singleton, List.length_nil]; omega)
          (by
            intro a ha b hb
            apply hc a _ b _
            · simp only [List.mem_append, List.mem_cons, List.mem_singleton] at ha ⊢
              tauto
            · simp only [List.mem_append, List.mem_cons, List.mem_singleton] at hb ⊢
              tauto)]
        simp only [List.length_append, List.length_singleton, List.length_cons, List.length_nil,
          List.reverse_cons, List.reverse_append, List.reverse_nil, List.nil_append,
          List.append_assoc, List.cons_append, List.singleton_append, Prod.mk.injEq]
        refine ⟨?_, by omega⟩
        simp

theorem moveMedianToFirst_of_all_equiv {α : Type} (comp : α → α → Bool) (l : List α)
    (result a b c : Nat) (ha : a < l.length) (hb : b < l.length) (hc : c < l.length)
    (h : ∀ x ∈ l, ∀ y ∈ l, comp x y = false) :
    moveMedianToFirst comp l result a b c = iterSwap l result b := by
  unfold moveMedianToFirst
  rw [List.getElem?_eq_getElem ha, List.getElem?_eq_getElem hb, List.getElem?_eq_getElem hc]
  simp only
  rw [h _ (List.getElem_mem ha) _ (List.getElem_mem hb),
    h _ (List.getElem_mem ha) _ (List.getElem_mem hc),
    h _ (List.getElem_mem hb) _ (List.getElem_mem hc)]
  simp

theorem tiedPartitionPivot_length {α : Type} (seg : List α) :
    (tiedPartitionPivot seg).length = seg.length := by
  unfold tiedPartitionPivot
  have hl := iterSwap_length seg 0 (seg.length / 2)
  cases h : iterSwap seg 0 (seg.length / 2) with
  | nil => rw [h] at hl; exact hl
  | cons x t => rw [h] at hl; simpa using hl

theorem mem_of_mem_tiedPartitionPivot {α : Type} (seg : List α) (x : α)
    (hx : x ∈ tiedPartitionPivot seg) : x ∈ seg := by
  unfold tiedPartitionPivot at hx
  cases h : iterSwap seg 0 (seg.length / 2) with
  | nil => rw [h] at hx; exact absurd hx (List.not_mem_nil _)
  | cons y t =>
    rw [h] at hx
    apply mem_of_mem_iterSwap seg 0 (seg.length / 2)
    rw [h]
    simpa using hx

/-- On a range of at least two pairwise equivalent elements
`__unguarded_partition_pivot` does what `tiedPartitionPivot` says and returns
the cut `tiedCut`. -/
theorem unguardedPartitionPivot_of_all_equiv {α : Type} (comp : α → α → Bool)
    (p seg s : List α) (hlen : 2 ≤ seg.length)
    (hc : ∀ a ∈ p ++ seg ++ s, ∀ b ∈ p ++ seg ++ s, comp a b = false) :
    unguardedPartitionPivot comp (p ++ seg ++ s) p.length (p.length + seg.length) =
      (p ++ tiedPartitionPivot seg ++ s, p.length + tiedCut seg.length) := by
  unfold unguardedPartitionPivot
  simp only
  have hL : (p ++ seg ++ s).length = p.length + seg.length + s.length := by
    simp only [List.length_append]
  rw [Nat.add_sub_cancel_left,
    moveMedianToFirst_of_all_equiv comp _ _ _ _ _ (by omega) (by omega) (by omega) hc]
  have hsw := iterSwap_append p seg s 0 (seg.length / 2) (by omega) (by omega)
  rw [Nat.add_zero] at hsw
  rw [hsw]
  have hl := iterSwap_length seg 0 (seg.length / 2)
  unfold tiedPartitionPivot tiedCut
  cases h : iterSwap seg 0 (seg.length / 2) with
  | nil => rw [h] at hl; simp only [List.length_nil] at hl; omega
  | cons x t =>
    rw [h] at hl
    simp only [List.length_cons] at hl
    have hmem : ∀ a ∈ (p ++ [x]) ++ t ++ s, a ∈ p ++ seg ++ s := by
      intro a ha
      simp only [List.mem_append, List.mem_singleton] at ha ⊢
      have hxt : ∀ b, b ∈ x :: t → b ∈ seg := fun b hb =>
        mem_of_mem_iterSwap seg 0 (seg.length / 2) b (by rw [h]; exact hb)
      rcases ha with ((ha | ha) | ha) | ha
      · exact Or.inl (Or.inl ha)
      · exact Or.inl (Or.inr (hxt a (by rw [ha]; exact List.mem_cons_self _ _)))
      · exact Or.inl (Or.inr (hxt a (List.mem_cons_of_mem _ ha)))
      · exact Or.inr ha
    have hlist : p ++ x :: t ++ s = (p ++ [x]) ++ t ++ s := by simp
    have h1 : p.length + 1 = (p ++ [x]).length := by simp
    have h2 : p.length + seg.length = (p ++ [x]).length + t.length := by
      simp only [List.length_append, List.length_singleton]; omega
    rw [hlist, h2]
    have h3 := unguardedPartition_of_all_equiv comp p.length ((p ++ [x]) ++ t ++ s).length
      t (p ++ [x]) s
      (by simp only [List.length_append]; omega) (by simp)
      (fun a ha b hb => hc a (hmem a ha) b (hmem b hb))
    rw [← h1] at h3 ⊢
    rw [h3]
    simp only [List.append_assoc, List.singleton_append, List.cons_append, List.nil_append,
      Prod.mk.injEq, true_and]
    omega

theorem tiedIntrosort_length {α : Type} (fuel : Nat) (seg : List α) :
    (tiedIntrosort fuel seg).length = seg.length := by
  induction fuel generalizing seg with
  | zero => rfl
  | succ fuel ih =>
    unfold tiedIntrosort
    split
    · rw [List.length_append, ih, ih, ← List.length_append, List.take_append_drop,
        tiedPartitionPivot_length]
    · rfl

theorem mem_of_mem_tiedIntrosort {α : Type} (fuel : Nat) (seg : List α) (x : α)
    (hx : x ∈ tiedIntrosort fuel seg) : x ∈ seg := by
  induction fuel generalizing seg with
  | zero => exact hx
  | succ fuel ih =>
    unfold tiedIntrosort at hx
    split at hx
    · apply mem_of_mem_tiedPartitionPivot
      rcases List.mem_append.mp hx with h | h
      · exact List.mem_of_mem_take (ih _ h)
      · exact List.mem_of_mem_drop (ih _ h)
    · exact hx

/-- On a range of pairwise equivalent elements, and within the depth limit,
`__introsort_loop` does what `tiedIntrosort` says and touches nothing outside
the range. -/
theorem introsortLoop_of_all_equiv {α : Type} (comp : α → α → Bool) :
    ∀ (fuel depthLimit : Nat) (p seg s : List α),
      tiedDepthOk fuel depthLimit seg.length = true →
      (∀ a ∈ p ++ seg ++ s, ∀ b ∈ p ++ seg ++ s, comp a b = false) →
      introsortLoop comp fuel (p ++ seg ++ s) p.length (p.length + seg.length) depthLimit =
        p ++ tiedIntrosort fuel seg ++ s := by
  intro fuel
  induction fuel with
  | zero => intro d p seg s _ _; rfl
  | succ fuel ih =>
    intro d p seg s hd hc
    unfold introsortLoop tiedIntrosort
    unfold tiedDepthOk at hd
    rw [Nat.add_sub_cancel_left]
    by_cases hbig : seg.length > 16
    · rw [if_pos hbig] at hd ⊢
      rw [if_pos hbig]
      simp only [Bool.and_eq_true, bne_iff_ne, ne_eq, decide_eq_true_eq, decide_not,
        Bool.not_eq_true'] at hd
      obtain ⟨⟨hd0, hdr⟩, hdl⟩ := hd
      have hd0' : ¬ d = 0 := by simpa using hd0
      rw [if_neg hd0']
      simp only
      rw [unguardedPartitionPivot_of_all_equiv comp p seg s (by omega) hc]
      simp only
      have hlen := tiedPartitionPivot_length seg
      have hcut : tiedCut seg.length ≤ seg.length := by unfold tiedCut; omega
      have hsplit : tiedPartitionPivot seg =
          (tiedPartitionPivot seg).take (tiedCut seg.length) ++
            (tiedPartitionPivot seg).drop (tiedCut seg.length) :=
        (List.take_append_drop _ _).symm
      have htake : ((tiedPartitionPivot seg).take (tiedCut seg.length)).length =
          tiedCut seg.length := by
        rw [List.length_take, hlen]; omega
      have hdrop : ((tiedPartitionPivot seg).drop (tiedCut seg.length)).length =
          seg.length - tiedCut seg.length := by
        rw [List.length_drop, hlen]
      have hsub : ∀ a, a ∈ (tiedPartitionPivot seg).take (tiedCut seg.length) ∨
          a ∈ (tiedPartitionPivot seg).drop (tiedCut seg.length) → a ∈ seg := by
        intro a ha
        apply mem_of_mem_tiedPartitionPivot
        rcases ha with ha | ha
        · exact List.mem_of_mem_take ha
        · exact List.mem_of_mem_drop ha
      -- the right part
      have hright : introsortLoop comp fuel (p ++ tiedPartitionPivot seg ++ s)
          (p.length + tiedCut seg.length) (p.length + seg.length) (d - 1) =
          (p ++ (tiedPartitionPivot seg).take (tiedCut seg.length)) ++
            tiedIntrosort fuel ((tiedPartitionPivot seg).drop (tiedCut seg.length)) ++ s := by
        have h1 : p ++ tiedPartitionPivot seg ++ s =
            (p ++ (tiedPartitionPivot seg).take (tiedCut seg.length)) ++
              (tiedPartitionPivot seg).drop (tiedCut seg.length) ++ s := by
          simp only [List.append_assoc]
          rw [← List.append_assoc (List.take _ _), List.take_append_drop]
        have h2 : p.length + tiedCut seg.length =
            (p ++ (tiedPartitionPivot seg).take (tiedCut seg.length)).length := by
          rw [List.length_append, htake]
        have h3 : p.length + seg.length =
            (p ++ (tiedPartitionPivot seg).take (tiedCut seg.length)).length +
              ((tiedPartitionPivot seg).drop (tiedCut seg.length)).length := by
          rw [List.length_append, htake, hdrop]; omega
        rw [h1, h3, h2]
        apply ih
        · rw [hdrop]; exact hdr
        · intro a ha b hb
          apply hc a _ b _
          · simp only [List.mem_append] at ha ⊢
            rcases ha with ((ha | ha) | ha) | ha
            · exact Or.inl (Or.inl ha)
            · exact Or.inl (Or.inr (hsub a (Or.inl ha)))
            · exact Or.inl (Or.inr (hsub a (Or.inr ha)))
            · exact Or.inr ha
          · simp only [List.mem_append] at hb ⊢
            rcases hb with ((hb | hb) | hb) | hb
            · exact Or.inl (Or.inl hb)
            · exact Or.inl (Or.inr (hsub b (Or.inl hb)))
            · exact Or.inl (Or.inr (hsub b (Or.inr hb)))
            · exact Or.inr hb
      rw [hright]
      -- the left part
      have h4 : (p ++ (tiedPartitionPivot seg).take (tiedCut seg.length)) ++
          tiedIntrosort fuel ((tiedPartitionPivot seg).drop (tiedCut seg.length)) ++ s =
          p ++ (tiedPartitionPivot seg).take (tiedCut seg.length) ++
            (tiedIntrosort fuel ((tiedPartitionPivot seg).drop (tiedCut seg.length)) ++ s) := by
        simp only [List.append_assoc]
      have h5 : p.length + tiedCut seg.length =
          p.length + ((tiedPartitionPivot seg).take (tiedCut seg.length)).length := by
        rw [htake]
      rw [h4, h5, ih (d - 1) p _ _ (by rw [htake]; exact hdl)]
      · simp only [List.append_assoc]
      · intro a ha b hb
        apply hc a _ b _
        · simp only [List.mem_append] at ha ⊢
          rcases ha with (ha | ha) | ha | ha
          · exact Or.inl (Or.inl ha)
          · exact Or.inl (Or.inr (hsub a (Or.inl ha)))
          · exact Or.inl (Or.inr (hsub a (Or.inr (mem_of_mem_tiedIntrosort _ _ _ ha))))
          · exact Or.inr ha
        · simp only [List.mem_append] at hb ⊢
          rcases hb with (hb | hb) | hb | hb
          · exact Or.inl (Or.inl hb)
          · exact Or.inl (Or.inr (hsub b (Or.inl hb)))
          · exact Or.inl (Or.inr (hsub b (Or.inr (mem_of_mem_tiedIntrosort _ _ _ hb))))
          · exact Or.inr hb
    · rw [if_neg hbig, if_neg hbig]

theorem set_of_getElem? {α : Type} (l : List α) (i : Nat) (x : α) (h : l[i]? = some x) :
    l.set i x = l := by
  apply List.ext_getElem?
  intro k
  rw [List.getElem?_set]
  split
  · rename_i hik
    subst hik
    split
    · exact h.symm
    · rename_i hlt
      rw [List.getElem?_eq_none (by omega)]
  · rfl

theorem unguardedLinearInsert_of_all_equiv {α : Type} (comp : α → α → Bool) (l : List α)
    (i : Nat) (hc : ∀ a ∈ l, ∀ b ∈ l, comp a b = false) :
    unguardedLinearInsert comp l i = l := by
  unfold unguardedLinearInsert
  cases hv : l[i]? with
  | none => rfl
  | some val =>
    simp only
    cases i with
    | zero => unfold unguardedLinearInsertLoop; exact set_of_getElem? l 0 val hv
    | succ k =>
      unfold unguardedLinearInsertLoop
      cases hx : l[k + 1 - 1]? with
      | none => exact set_of_getElem? l _ val hv
      | some x =>
        simp only
        rw [hc val (List.getElem?_mem hv) x (List.getElem?_mem hx)]
        simp only [Bool.false_eq_true, and_false, if_false]
        exact set_of_getElem? l _ val hv

theorem insertionStep_of_all_equiv {α : Type} (comp : α → α → Bool) (first : Nat) (l : List α)
    (i : Nat) (hc : ∀ a ∈ l, ∀ b ∈ l, comp a b = false) :
    insertionStep comp first l i = l := by
  unfold insertionStep
  cases hx : l[i]? with
  | none => rfl
  | some x =>
    cases hf : l[first]? with
    | none => rfl
    | some f =>
      simp only
      rw [hc x (List.getElem?_mem hx) f (List.getElem?_mem hf)]
      simp only [Bool.false_eq_true, if_false]
      exact unguardedLinearInsert_of_all_equiv comp l i hc

theorem foldl_of_fixed {α β : Type} (f : α → β → α) (a : α) (h : ∀ b, f a b = a)
    (l : List β) : l.foldl f a = a := by
  induction l with
  | nil => rfl
  | cons b bs ih => rw [List.foldl_cons, h b, ih]

theorem finalInsertionSort_of_all_equiv {α : Type} (comp : α → α → Bool) (l : List α)
    (first last : Nat) (hc : ∀ a ∈ l, ∀ b ∈ l, comp a b = false) :
    finalInsertionSort comp l first last = l := by
  have h1 : ∀ f t, insertionSortRange comp l f t = l := by
    intro f t
    unfold insertionSortRange
    split
    · rfl
    · exact foldl_of_fixed _ l (fun i => insertionStep_of_all_equiv comp f l i hc) _
  unfold finalInsertionSort
  split
  · rw [h1]
    unfold unguardedInsertionSort
    exact foldl_of_fixed _ l (fun i => unguardedLinearInsert_of_all_equiv comp l i hc) _
  · exact h1 first last

/-- GNU `std::sort` on a range of pairwise equivalent elements whose size keeps
the introsort within its depth limit: the result is `tiedIntrosort` of the
range. -/
theorem libstdcxxSort_of_all_equiv {α : Type} (comp : α → α → Bool) (l : List α)
    (hc : ∀ a ∈ l, ∀ b ∈ l, comp a b = false)
    (hd : tiedDepthOk l.length (lg l.length * 2) l.length = true) :
    libstdcxxSort comp l = tiedIntrosort l.length l := by
  unfold libstdcxxSort
  split
  · rename_i h0
    have hnil : l = [] := List.eq_nil_of_length_eq_zero h0
    subst hnil
    rfl
  · simp only
    have h := introsortLoop_of_all_equiv comp l.length (lg l.length * 2) [] l []
      (by simpa using hd) (by simpa using hc)
    simp only [List.nil_append, List.append_nil, List.length_nil, Nat.zero_add] at h
    rw [h]
    apply finalInsertionSort_of_all_equiv
    intro a ha b hb
    exact hc a (mem_of_mem_tiedIntrosort _ _ _ ha) b (mem_of_mem_tiedIntrosort _ _ _ hb)


/-- C13 fails: for the corpus of 64 copies of `"cat"` every pair scores 2.
With the `std::sort` of GNU libstdc++ the ranking starts `(26, 53)`, `(27, 32)`,
`(27, 31)`, and the pair `(0, 1)`, which comes first in pair-index order, is at
position 2001 of 2016.  `reversingSort` meets the contract of `std::sort` too,
and with it the pair `(62, 63)` is ranked first and the pair `(0, 1)` last; with
`insertionSort` the pair `(0, 1)` is first. -/
theorem ranking_tie_counterexample :
    (rankedPairs libstdcxxSort
      (simPairs (simMatrix (allWords (α := ℚ) libstdcxxSort sampleCorpus)))).take 3 =
      [(26, 53, 2), (27, 32, 2), (27, 31, 2)] ∧
    (rankedPairs libstdcxxSort
      (simPairs (simMatrix (allWords (α := ℚ) libstdcxxSort sampleCorpus))))[2001]? =
      some (0, 1, 2) ∧
    (rankedPairs reversingSort
      (simPairs (simMatrix (allWords (α := ℚ) reversingSort sampleCorpus)))).head? =
      some (62, 63, 2) ∧
    (rankedPairs reversingSort
      (simPairs (simMatrix (allWords (α := ℚ) reversingSort sampleCorpus)))).getLast? =
      some (0, 1, 2) ∧
    (rankedPairs insertionSort
      (simPairs (simMatrix (allWords (α := ℚ) insertionSort sampleCorpus)))).head? =
      some (0, 1, 2) := by
  have hconst : ∀ p ∈ (List.range 64).flatMap (fun i =>
      (List.range' (i + 1) (64 - (i + 1))).map (fun j => (i, j, (2 : ℚ)))), p.2.2 = 2 := by
    intro p hp
    simp only [List.mem_flatMap, List.mem_map] at hp
    obtain ⟨i, _, j, _, rfl⟩ := hp
    rfl
  have hfirst : ((List.range 64).flatMap (fun i =>
      (List.range' (i + 1) (64 - (i + 1))).map (fun j => (i, j, (2 : ℚ))))).head? =
      some (0, 1, 2) := by
    decide!
  have hlast : ((List.range 64).flatMap (fun i =>
      (List.range' (i + 1) (64 - (i + 1))).map (fun j => (i, j, (2 : ℚ))))).getLast? =
      some (62, 63, 2) := by
    decide!
  have hlen : ((List.range 64).flatMap (fun i =>
      (List.range' (i + 1) (64 - (i + 1))).map (fun j => (i, j, (2 : ℚ))))).length = 2016 := by
    decide!
  rw [simPairs_sampleCorpus reversingSort (by decide!),
    simPairs_sampleCorpus insertionSort (by decide!),
    simPairs_sampleCorpus libstdcxxSort (by decide!)]
  have hgnu : rankedPairs libstdcxxSort ((List.range 64).flatMap (fun i =>
      (List.range' (i + 1) (64 - (i + 1))).map (fun j => (i, j, (2 : ℚ))))) =
      tiedIntrosort 2016 ((List.range 64).flatMap (fun i =>
        (List.range' (i + 1) (64 - (i + 1))).map (fun j => (i, j, (2 : ℚ))))) := by
    show libstdcxxSort bySimDesc _ = _
    rw [libstdcxxSort_of_all_equiv bySimDesc _ (bySimDesc_eq_false_of_const 2 _ hconst)
      (by rw [hlen]; decide!), hlen]
  have hrev : rankedPairs reversingSort ((List.range 64).flatMap (fun i =>
      (List.range' (i + 1) (64 - (i + 1))).map (fun j => (i, j, (2 : ℚ))))) =
      ((List.range 64).flatMap (fun i =>
        (List.range' (i + 1) (64 - (i + 1))).map (fun j => (i, j, (2 : ℚ))))).reverse := by
    show insertionSort bySimDesc _ = _
    apply insertionSort_of_all_equiv
    apply bySimDesc_eq_false_of_const 2
    intro p hp
    exact hconst p (List.mem_reverse.mp hp)
  have hins : rankedPairs insertionSort ((List.range 64).flatMap (fun i =>
      (List.range' (i + 1) (64 - (i + 1))).map (fun j => (i, j, (2 : ℚ))))) =
      (List.range 64).flatMap (fun i =>
        (List.range' (i + 1) (64 - (i + 1))).map (fun j => (i, j, (2 : ℚ)))) := by
    show insertionSort bySimDesc _ = _
    exact insertionSort_of_all_equiv _ _ (bySimDesc_eq_false_of_const 2 _ hconst)
  rw [hgnu, hrev, hins, List.head?_reverse, List.getLast?_reverse]
  exact ⟨by decide!, by decide!, hlast, hfirst, hfirst⟩

/-! ## Theorems: the end-to-end example -/

/-- When `n` is at least the size of the map, `topWords` keeps every entry. -/
theorem topWords_perm_of_full {α : Type} [LT α] [DecidableRel (fun a b : α => a < b)]
    (sortFn : SortFn) (hS : StdSortContract sortFn)
    (hc : StrictWeakOrdering (byFreqDesc : Str × α → Str × α → Bool))
    (freqs : StdMap α) (n : Int) (h : (freqs.length : Int) ≤ n) :
    (topWords sortFn freqs n).Perm freqs := by
  have hp : (sortFn (byFreqDesc : Str × α → Str × α → Bool) freqs).Perm freqs :=
    (hS (byFreqDesc : Str × α → Str × α → Bool) freqs hc).1
  unfold topWords
  simp only
  rw [List.take_of_length_le]
  · exact hp
  · rw [hp.length_eq] at *
    omega

/-- C14: for doc1 = `"THE CAT SAT ON THE MAT"` and doc2 =
`"THE CAT RAN ON THE ROAD"` the frequency mappings are `CAT, MAT, ON, SAT` and
`CAT, ON, RAN, ROAD`, each word with frequency 0.25; the top-100 profiles hold
exactly these entries, and their score is exactly 1.0, in `double` arithmetic
and in exact arithmetic, for every conforming `std::sort`. -/
theorem end_to_end_example (sortFn : SortFn) (hS : StdSortContract sortFn) :
    normalizeFreqs (α := Binary64) (wordCounts (clean exampleDoc1))
        (totalCount (wordCounts (clean exampleDoc1))) =
      [("CAT".toList, ⟨1 / 4⟩), ("MAT".toList, ⟨1 / 4⟩), ("ON".toList, ⟨1 / 4⟩),
        ("SAT".toList, ⟨1 / 4⟩)] ∧
    normalizeFreqs (α := Binary64) (wordCounts (clean exampleDoc2))
        (totalCount (wordCounts (clean exampleDoc2))) =
      [("CAT".toList, ⟨1 / 4⟩), ("ON".toList, ⟨1 / 4⟩), ("RAN".toList, ⟨1 / 4⟩),
        ("ROAD".toList, ⟨1 / 4⟩)] ∧
    (documentProfile (α := Binary64) sortFn 100 exampleDoc1).Perm
      [("CAT".toList, ⟨1 / 4⟩), ("MAT".toList, ⟨1 / 4⟩), ("ON".toList, ⟨1 / 4⟩),
        ("SAT".toList, ⟨1 / 4⟩)] ∧
    (documentProfile (α := Binary64) sortFn 100 exampleDoc2).Perm
      [("CAT".toList, ⟨1 / 4⟩), ("ON".toList, ⟨1 / 4⟩), ("RAN".toList, ⟨1 / 4⟩),
        ("ROAD".toList, ⟨1 / 4⟩)] ∧
    similarityScore (documentProfile (α := Binary64) sortFn 100 exampleDoc1)
      (documentProfile (α := Binary64) sortFn 100 exampleDoc2) = ⟨1⟩ ∧
    similarityScore (documentProfile (α := ℚ) sortFn 100 exampleDoc1)
      (documentProfile (α := ℚ) sortFn 100 exampleDoc2) = 1 := by
  have f1 : normalizeFreqs (α := Binary64) (wordCounts (clean exampleDoc1))
      (totalCount (wordCounts (clean exampleDoc1))) =
      [("CAT".toList, ⟨1 / 4⟩), ("MAT".toList, ⟨1 / 4⟩), ("ON".toList, ⟨1 / 4⟩),
        ("SAT".toList, ⟨1 / 4⟩)] := by decide!
  have f2 : normalizeFreqs (α := Binary64) (wordCounts (clean exampleDoc2))
      (totalCount (wordCounts (clean exampleDoc2))) =
      [("CAT".toList, ⟨1 / 4⟩), ("ON".toList, ⟨1 / 4⟩), ("RAN".toList, ⟨1 / 4⟩),
        ("ROAD".toList, ⟨1 / 4⟩)] := by decide!
  have g1 : normalizeFreqs (α := ℚ) (wordCounts (clean exampleDoc1))
      (totalCount (wordCounts (clean exampleDoc1))) =
      [("CAT".toList, 1 / 4), ("MAT".toList, 1 / 4), ("ON".toList, 1 / 4),
        ("SAT".toList, 1 / 4)] := by decide!
  have g2 : normalizeFreqs (α := ℚ) (wordCounts (clean exampleDoc2))
      (totalCount (wordCounts (clean exampleDoc2))) =
      [("CAT".toList, 1 / 4), ("ON".toList, 1 / 4), ("RAN".toList, 1 / 4),
        ("ROAD".toList, 1 / 4)] := by decide!
  have p1 : (documentProfile (α := Binary64) sortFn 100 exampleDoc1).Perm
      [("CAT".toList, ⟨1 / 4⟩), ("MAT".toList, ⟨1 / 4⟩), ("ON".toList, ⟨1 / 4⟩),
        ("SAT".toList, ⟨1 / 4⟩)] := by
    show (topWords sortFn _ 100).Perm _
    rw [f1]
    exact topWords_perm_of_full sortFn hS byFreqDesc_strictWeakOrdering_binary64 _ 100
      (by decide)
  have p2 : (documentProfile (α := Binary64) sortFn 100 exampleDoc2).Perm
      [("CAT".toList, ⟨1 / 4⟩), ("ON".toList, ⟨1 / 4⟩), ("RAN".toList, ⟨1 / 4⟩),
        ("ROAD".toList, ⟨1 / 4⟩)] := by
    show (topWords sortFn _ 100).Perm _
    rw [f2]
    exact topWords_perm_of_full sortFn hS byFreqDesc_strictWeakOrdering_binary64 _ 100
      (by decide)
  have q1 : (documentProfile (α := ℚ) sortFn 100 exampleDoc1).Perm
      [("CAT".toList, 1 / 4), ("MAT".toList, 1 / 4), ("ON".toList, 1 / 4),
        ("SAT".toList, 1 / 4)] := by
    show (topWords sortFn _ 100).Perm _
    rw [g1]
    exact topWords_perm_of_full sortFn hS byFreqDesc_strictWeakOrdering _ 100 (by decide)
  have q2 : (documentProfile (α := ℚ) sortFn 100 exampleDoc2).Perm
      [("CAT".toList, 1 / 4), ("ON".toList, 1 / 4), ("RAN".toList, 1 / 4),
        ("ROAD".toList, 1 / 4)] := by
    show (topWords sortFn _ 100).Perm _
    rw [g2]
    exact topWords_perm_of_full sortFn hS byFreqDesc_strictWeakOrdering _ 100 (by decide)
  have allB : ∀ a ∈ List.permutations'
      ([("CAT".toList, ⟨1 / 4⟩), ("MAT".toList, ⟨1 / 4⟩), ("ON".toList, ⟨1 / 4⟩),
        ("SAT".toList, ⟨1 / 4⟩)] : List (Str × Binary64)),
      ∀ b ∈ List.permutations'
        ([("CAT".toList, ⟨1 / 4⟩), ("ON".toList, ⟨1 / 4⟩), ("RAN".toList, ⟨1 / 4⟩),
          ("ROAD".toList, ⟨1 / 4⟩)] : List (Str × Binary64)),
      similarityScore a b = ⟨1⟩ := by decide!
  have allQ : ∀ a ∈ List.permutations'
      ([("CAT".toList, 1 / 4), ("MAT".toList, 1 / 4), ("ON".toList, 1 / 4),
        ("SAT".toList, 1 / 4)] : List (Str × ℚ)),
      ∀ b ∈ List.permutations'
        ([("CAT".toList, 1 / 4), ("ON".toList, 1 / 4), ("RAN".toList, 1 / 4),
          ("ROAD".toList, 1 / 4)] : List (Str × ℚ)),
      similarityScore a b = 1 := by decide!
  exact ⟨f1, f2, p1, p2,
    allB _ (List.mem_permutations'.mpr p1) _ (List.mem_permutations'.mpr p2),
    allQ _ (List.mem_permutations'.mpr q1) _ (List.mem_permutations'.mpr q2)⟩

/-- C14, with insertion sort as `std::sort`. -/
theorem end_to_end_example_witness :
    StdSortContract insertionSort ∧
    (documentProfile (α := Binary64) insertionSort 100 exampleDoc1).Perm
      [("CAT".toList, ⟨1 / 4⟩), ("MAT".toList, ⟨1 / 4⟩), ("ON".toList, ⟨1 / 4⟩),
        ("SAT".toList, ⟨1 / 4⟩)] ∧
    (documentProfile (α := Binary64) insertionSort 100 exampleDoc2).Perm
      [("CAT".toList, ⟨1 / 4⟩), ("ON".toList, ⟨1 / 4⟩), ("RAN".toList, ⟨1 / 4⟩),
        ("ROAD".toList, ⟨1 / 4⟩)] ∧
    similarityScore (documentProfile (α := Binary64) insertionSort 100 exampleDoc1)
      (documentProfile (α := Binary64) insertionSort 100 exampleDoc2) = ⟨1⟩ ∧
    similarityScore (documentProfile (α := ℚ) insertionSort 100 exampleDoc1)
      (documentProfile (α := ℚ) insertionSort 100 exampleDoc2) = 1 :=
  ⟨insertionSort_contract, (end_to_end_example insertionSort insertionSort_contract).2.2⟩

/-! ## Theorems: no division by zero -/

theorem checked_div_natCast (c t : Nat) (ht : t ≠ 0) :
    ((c : Checked) / (t : Checked)) = ⟨some ((c : ℚ) / (t : ℚ))⟩ := by
  show (match (some (c : ℚ)), (some (t : ℚ)) with
    | some x, some y => if y = 0 then (⟨none⟩ : Checked) else ⟨some (x / y)⟩
    | _, _ => ⟨none⟩) = _
  simp only
  rw [if_neg (by exact_mod_cast ht)]

/-- C20: every count stored by `wordCounts` is at least 1, so the total `main`
computes is 0 exactly when the map of counts is empty; `normalizeFreqs` of the
empty map is the empty map, whatever the total; and in the pipeline no division
by zero is evaluated: in the arithmetic that records one, every frequency is
the plain quotient `count / total`. -/
theorem no_division_by_zero (text : Str) :
    (∀ p ∈ wordCounts text, 1 ≤ p.2) ∧
    (totalCount (wordCounts text) = 0 ↔ wordCounts text = []) ∧
    (∀ total : Nat, normalizeFreqs (α := Checked) [] total = []) ∧
    normalizeFreqs (α := Checked) (wordCounts text) (totalCount (wordCounts text)) =
      (wordCounts text).map (fun pair =>
        (pair.1, ⟨some ((pair.2 : ℚ) / ((totalCount (wordCounts text) : Nat) : ℚ))⟩)) ∧
    (∀ q ∈ normalizeFreqs (α := Checked) (wordCounts text) (totalCount (wordCounts text)),
      q.2.val ≠ none) := by
  have hmap : normalizeFreqs (α := Checked) (wordCounts text) (totalCount (wordCounts text)) =
      (wordCounts text).map (fun pair =>
        (pair.1, ⟨some ((pair.2 : ℚ) / ((totalCount (wordCounts text) : Nat) : ℚ))⟩)) := by
    rw [normalizeFreqs_eq_map _ _ (wordCounts_keysAscending text)]
    apply List.map_congr_left
    intro p hp
    have ht : totalCount (wordCounts text) ≠ 0 := by
      intro h0
      rw [wordCounts_eq_nil_of_totalCount_eq_zero text h0] at hp
      cases hp
    rw [checked_div_natCast p.2 _ ht]
  refine ⟨fun p hp => wordCounts_values_pos text p hp, ?_, fun _ => rfl, hmap, ?_⟩
  · constructor
    · exact wordCounts_eq_nil_of_totalCount_eq_zero text
    · intro h
      rw [h]
      rfl
  · intro q hq
    rw [hmap] at hq
    obtain ⟨p, _, rfl⟩ := List.mem_map.mp hq
    simp

/-! ## Theorems: the nested loop against a loop over the shared tokens -/

theorem freqOf_cons_of_eq {α : Type} [Zero α] (b : Str × α) (bs : List (Str × α)) (t : Str)
    (h : t = b.1) : freqOf (b :: bs) t = b.2 := by
  obtain ⟨k, v⟩ := b
  simp only at h
  simp [freqOf, mapFind, h]

theorem freqOf_cons_of_ne {α : Type} [Zero α] (b : Str × α) (bs : List (Str × α)) (t : Str)
    (h : t ≠ b.1) : freqOf (b :: bs) t = freqOf bs t := by
  obtain ⟨k, v⟩ := b
  simp only at h
  simp [freqOf, mapFind, h]

/-- The inner loop of `similarityScore`, in any arithmetic: with pairwise
distinct tokens in the second profile it adds one term, or none. -/
theorem foldl_inner_of_nodup {α : Type} [Zero α] [Add α] (word1 : Str × α)
    (words2 : List (Str × α)) (sim : α) (h2 : (words2.map Prod.fst).Nodup) :
    words2.foldl
        (fun sim word2 => if word1.1 = word2.1 then sim + (word1.2 + word2.2) else sim) sim =
      if word1.1 ∈ words2.map Prod.fst then sim + (word1.2 + freqOf words2 word1.1)
      else sim := by
  induction words2 generalizing sim with
  | nil => simp
  | cons b bs ih =>
    have hcons : List.map Prod.fst (b :: bs) = b.1 :: List.map Prod.fst bs := rfl
    rw [hcons, List.nodup_cons] at h2
    rw [List.foldl_cons, hcons]
    by_cases h : word1.1 = b.1
    · have hn : ∀ x ∈ bs, word1.1 ≠ x.1 := by
        intro x hx hx2
        exact h2.1 (by rw [← h, hx2]; exact List.mem_map_of_mem Prod.fst hx)
      rw [if_pos h, foldl_inner_of_no_match word1 bs _ hn,
        if_pos (by rw [List.mem_cons]; exact Or.inl h), freqOf_cons_of_eq b bs _ h]
    · rw [if_neg h, ih sim h2.2, freqOf_cons_of_ne b bs _ h]
      by_cases hm : word1.1 ∈ bs.map Prod.fst
      · rw [if_pos hm, if_pos (List.mem_cons_of_mem _ hm)]
      · rw [if_neg hm, if_neg (by
          rw [List.mem_cons]; rintro (h3 | h3); exact h h3; exact hm h3)]

theorem foldl_outer_of_nodup {α : Type} [Zero α] [Add α] (words1 words2 : List (Str × α))
    (sim : α) (h2 : (words2.map Prod.fst).Nodup) :
    words1.foldl
        (fun sim word1 =>
          words2.foldl
            (fun sim word2 => if word1.1 = word2.1 then sim + (word1.2 + word2.2) else sim)
            sim)
        sim =
      (words1.filter (fun a => decide (a.1 ∈ words2.map Prod.fst))).foldl
        (fun sim a => sim + (a.2 + freqOf words2 a.1)) sim := by
  induction words1 generalizing sim with
  | nil => rfl
  | cons a as ih =>
    rw [List.foldl_cons, foldl_inner_of_nodup a words2 sim h2]
    by_cases hm : a.1 ∈ words2.map Prod.fst
    · rw [if_pos hm, List.filter_cons_of_pos (by simpa using hm), List.foldl_cons]
      exact ih _
    · rw [if_neg hm, List.filter_cons_of_neg (by simpa using hm)]
      exact ih _

/-- In any arithmetic the nested loop is a single loop over the shared tokens, in
the order of the first profile. -/
theorem similarityScore_eq_sharedLoopScore {α : Type} [Zero α] [Add α]
    (words1 words2 : List (Str × α)) (h2 : (words2.map Prod.fst).Nodup) :
    similarityScore words1 words2 = sharedLoopScore words1 words2 :=
  foldl_outer_of_nodup words1 words2 0 h2

theorem foldl_add_eq_sum (g : Str → ℚ) (l : List Str) (sim : ℚ) :
    l.foldl (fun sim t => sim + g t) sim = sim + (l.map g).sum := by
  induction l generalizing sim with
  | nil => simp
  | cons t ts ih => rw [List.foldl_cons, ih, List.map_cons, List.sum_cons, add_assoc]

theorem sum_map_filter_eq (g : Str → ℚ) (p : Str → Bool) (l : List Str) :
    ((l.filter p).map g).sum = (l.map (fun t => if p t = true then g t else 0)).sum := by
  induction l with
  | nil => rfl
  | cons t ts ih =>
    by_cases h : p t = true
    · rw [List.filter_cons_of_pos h, List.map_cons, List.sum_cons, ih, List.map_cons,
        List.sum_cons, if_pos h]
    · rw [List.filter_cons_of_neg h, ih, List.map_cons, List.sum_cons, if_neg h, zero_add]

/-- In exact arithmetic a sorted merge over the shared tokens gives the score of
the nested loop. -/
theorem similarityScore_eq_sortedMergeScore (profileA profileB : List (Str × ℚ))
    (hA : (profileA.map Prod.fst).Nodup) (hB : (profileB.map Prod.fst).Nodup) :
    similarityScore profileA profileB = sortedMergeScore profileA profileB := by
  rw [similarityScore_eq_sum_tokens profileA profileB hA hB]
  unfold sortedMergeScore
  rw [foldl_add_eq_sum (fun t => freqOf profileA t + freqOf profileB t), zero_add]
  have hperm : (insertionSort (fun s t : Str => decide (s < t))
      ((profileA.map Prod.fst).filter (fun t => decide (t ∈ profileB.map Prod.fst)))).Perm
      ((profileA.map Prod.fst).filter (fun t => decide (t ∈ profileB.map Prod.fst))) := by
    simpa [insertionSort] using foldl_insertSorted_perm (fun s t : Str => decide (s < t))
      ((profileA.map Prod.fst).filter (fun t => decide (t ∈ profileB.map Prod.fst))) []
  rw [(hperm.map _).sum_eq, sum_map_filter_eq]
  congr 1
  apply List.map_congr_left
  intro t _
  simp only [decide_eq_true_eq]

/-- C5 as amended: for profiles whose tokens are pairwise distinct, the nested
loop of `similarityScore` returns, in `double` arithmetic, the sum over the
shared tokens of the two frequencies taken in the order of the first profile;
in exact arithmetic it returns the sum over the intersection of the two
vocabularies, in whatever order it is taken (a sorted merge included). -/
theorem similarityScore_refinement (profileA profileB : List (Str × Binary64))
    (exactA exactB : List (Str × ℚ))
    (hA : (profileA.map Prod.fst).Nodup) (hB : (profileB.map Prod.fst).Nodup)
    (hA' : (exactA.map Prod.fst).Nodup) (hB' : (exactB.map Prod.fst).Nodup) :
    similarityScore profileA profileB = sharedLoopScore profileA profileB ∧
    similarityScore exactA exactB = intersectionScore exactA exactB ∧
    similarityScore exactA exactB = sortedMergeScore exactA exactB := by
  have _ := hA
  exact ⟨similarityScore_eq_sharedLoopScore profileA profileB hB,
    similarityScore_eq_intersectionScore exactA exactB hA' hB',
    similarityScore_eq_sortedMergeScore exactA exactB hA' hB'⟩

/-- C5 as amended, at two `double` profiles and two exact profiles sharing the
token `CAT`. -/
theorem similarityScore_refinement_witness :
    ((([("CAT".toList, ⟨1 / 2⟩), ("MAT".toList, ⟨1 / 2⟩)] :
      List (Str × Binary64)).map Prod.fst).Nodup) ∧
    ((([("CAT".toList, ⟨1 / 4⟩), ("RAN".toList, ⟨3 / 4⟩)] :
      List (Str × Binary64)).map Prod.fst).Nodup) ∧
    ((([("CAT".toList, 1 / 2), ("MAT".toList, 1 / 2)] : List (Str × ℚ)).map Prod.fst).Nodup) ∧
    ((([("CAT".toList, 1 / 4), ("RAN".toList, 3 / 4)] : List (Str × ℚ)).map Prod.fst).Nodup) ∧
    similarityScore ([("CAT".toList, ⟨1 / 2⟩), ("MAT".toList, ⟨1 / 2⟩)] : List (Str × Binary64))
        [("CAT".toList, ⟨1 / 4⟩), ("RAN".toList, ⟨3 / 4⟩)] =
      sharedLoopScore [("CAT".toList, ⟨1 / 2⟩), ("MAT".toList, ⟨1 / 2⟩)]
        [("CAT".toList, ⟨1 / 4⟩), ("RAN".toList, ⟨3 / 4⟩)] ∧
    similarityScore ([("CAT".toList, 1 / 2), ("MAT".toList, 1 / 2)] : List (Str × ℚ))
        [("CAT".toList, 1 / 4), ("RAN".toList, 3 / 4)] =
      intersectionScore [("CAT".toList, 1 / 2), ("MAT".toList, 1 / 2)]
        [("CAT".toList, 1 / 4), ("RAN".toList, 3 / 4)] ∧
    similarityScore ([("CAT".toList, 1 / 2), ("MAT".toList, 1 / 2)] : List (Str × ℚ))
        [("CAT".toList, 1 / 4), ("RAN".toList, 3 / 4)] =
      sortedMergeScore [("CAT".toList, 1 / 2), ("MAT".toList, 1 / 2)]
        [("CAT".toList, 1 / 4), ("RAN".toList, 3 / 4)] :=
  ⟨by decide, by decide, by decide, by decide,
    similarityScore_refinement _ _ _ _ (by decide) (by decide) (by decide) (by decide)⟩

/-- C5 fails in `double` arithmetic: for the profiles of the documents
`"x x x y z z z z"` and `"x y y z z z"` the nested loop returns `2 - 2^-52`,
while the sum of the same three terms over the shared tokens `X, Y, Z` in
ascending token order, as a sorted merge takes it, is `2`. -/
theorem similarityScore_binary64_merge_counterexample :
    similarityScore
        (documentProfile (α := Binary64) libstdcxxSort 100 "x x x y z z z z".toList)
        (documentProfile (α := Binary64) libstdcxxSort 100 "x y y z z z".toList) =
      ⟨2 - 1 / 2 ^ 52⟩ ∧
    sortedMergeScore
        (documentProfile (α := Binary64) libstdcxxSort 100 "x x x y z z z z".toList)
        (documentProfile (α := Binary64) libstdcxxSort 100 "x y y z z z".toList) =
      ⟨2⟩ ∧
    similarityScore
        (documentProfile (α := Binary64) libstdcxxSort 100 "x x x y z z z z".toList)
        (documentProfile (α := Binary64) libstdcxxSort 100 "x y y z z z".toList) ≠
      sortedMergeScore
        (documentProfile (α := Binary64) libstdcxxSort 100 "x x x y z z z z".toList)
        (documentProfile (α := Binary64) libstdcxxSort 100 "x y y z z z".toList) := by
  decide!

end Project1
